import Mathlib

/-!
Shallow embedding of the AlphaCala mancala engine (`src/main.cpp`).

A mancala board is an array of 14 cells (`board_type = std::array<std::uint8_t, 14>`):
indices 0–5 are AlphaCala's pits, 6 its store, 7–12 the opponent's pits, 13 their store.
Cells are modelled as unbounded naturals: the program plays with 48 seeds in total and
every transition conserves that total, so each `uint8_t` cell stays far below 2^8 and the
machine arithmetic never wraps; `Nat` is therefore exact on the program's state space.

The search (`minimax`) works on `Int` exactly as the C++ works on `int`; its out-parameter
`move_out` is modelled by an `Option Int` result component: `some m` means the C++ would
store `m` through a non-null `move_out`, `none` means the pointer is never written (the
`depth == 0` early return happens before the `*move_out = best_move` statement).
-/

/-- The board: 14 cells, AlphaCala's pits 0–5, its store 6, opponent's pits 7–12,
their store 13 (`board_type` in the source). -/
abbrev Board := List Nat

/-- Scan order of AlphaCala's pits (`AC_PITS = {5, 4, 3, 2, 1, 0}` in the source). -/
def AC_PITS : List Nat := [5, 4, 3, 2, 1, 0]

/-- Scan order of the opponent's pits (`OPP_PITS = {12, 11, 10, 9, 8, 7}` in the source). -/
def OPP_PITS : List Nat := [12, 11, 10, 9, 8, 7]

/-- Next pit to drop a seed into, skipping the opposing player's store
(`next_pit_index` in the source). -/
def next_pit_index (pit_index : Nat) (is_ac_turn : Bool) : Nat :=
  if pit_index = 12 ∧ is_ac_turn = true then 0
  else if pit_index = 5 ∧ is_ac_turn = false then 7
  else (pit_index + 1) % 14

/-- One seed dropped into cell `i` (`++board[pit_index]` in the source). -/
def bump (board : Board) (i : Nat) : Board :=
  board.set i (board.getD i 0 + 1)

/-- The sowing loop `while (num_seeds > 1) { pit_index = next; ++board[pit_index]; }`:
with `n` seeds in hand it sows `n - 1` of them and returns the board together with the
cursor position before the final advance. -/
def sow (is_ac_move : Bool) : Board → Nat → Nat → Board × Nat
  | board, pit_index, 0 => (board, pit_index)
  | board, pit_index, 1 => (board, pit_index)
  | board, pit_index, n + 2 =>
    let p := next_pit_index pit_index is_ac_move
    sow is_ac_move (bump board p) p (n + 1)

/-- The landing-pit logic of `play_move` (source lines 97–119), applied to the board
after sowing and to the final cursor position: landing in a store grants an extra turn;
landing on an empty cell whose facing pit is non-empty on the mover's own side captures
(the C++ nests the capture test inside the `board[pit_index] == 0` test and falls
through to the plain increment in every non-capture case, which flattens to the single
conjunction below); otherwise the landing pit gains the seed. -/
def land (board : Board) (pit_index : Nat) (is_ac_move : Bool) : Board × Bool :=
  if pit_index = 6 ∨ pit_index = 13 then
    (bump board pit_index, true)
  else if board.getD pit_index 0 = 0 ∧ 0 < board.getD (12 - pit_index) 0 ∧
      decide (pit_index ≤ 5) = is_ac_move then
    ((board.set (if is_ac_move then 6 else 13)
        (board.getD (if is_ac_move then 6 else 13) 0 + 1 + board.getD (12 - pit_index) 0)).set
      (12 - pit_index) 0, false)
  else
    (bump board pit_index, false)

/-- Plays a move (`play_move` in the source): zero the source pit, sow all but the last
seed, advance once more, then apply the landing rule.  Returns the new board and whether
the mover takes another turn. -/
def play_move (board : Board) (pit_index : Nat) : Board × Bool :=
  let is_ac_move := decide (pit_index ≤ 5)
  let r := sow is_ac_move (board.set pit_index 0) pit_index (board.getD pit_index 0)
  land r.1 (next_pit_index r.2 is_ac_move) is_ac_move

/-- The board just before the last seed lands: source pit zeroed and all intermediate
seeds sown. -/
def sown_board (board : Board) (pit_index : Nat) : Board :=
  (sow (decide (pit_index ≤ 5)) (board.set pit_index 0) pit_index
    (board.getD pit_index 0)).1

/-- The cell the last seed lands in. -/
def landing_index (board : Board) (pit_index : Nat) : Nat :=
  next_pit_index
    (sow (decide (pit_index ≤ 5)) (board.set pit_index 0) pit_index
      (board.getD pit_index 0)).2
    (decide (pit_index ≤ 5))

/-- A legal move: a pit (not store) index belonging to one of the two sides, holding at
least one seed (spec §3, "Move"). -/
abbrev LegalMove (board : Board) (pit_index : Nat) : Prop :=
  (pit_index ≤ 5 ∨ (7 ≤ pit_index ∧ pit_index ≤ 12)) ∧ board.getD pit_index 0 ≠ 0

/-- The landing cell lies on the mover's own side, phrased as the spec does:
index at most 5 for an AlphaCala move, in 7..12 for an opponent move. -/
abbrev own_side (pit_index landing : Nat) : Prop :=
  if pit_index ≤ 5 then landing ≤ 5 else 7 ≤ landing ∧ landing ≤ 12

/-- The capture ("stealing") conditions exactly as the spec states them: the landing
cell held 0 before the last seed arrived, it is on the mover's own side, and the facing
pit `12 - landing` is non-empty. -/
abbrev capture_cond (board : Board) (pit_index : Nat) : Prop :=
  (sown_board board pit_index).getD (landing_index board pit_index) 0 = 0 ∧
  own_side pit_index (landing_index board pit_index) ∧
  0 < (sown_board board pit_index).getD (12 - landing_index board pit_index) 0

theorem play_move_decomp (board : Board) (pit_index : Nat) :
    play_move board pit_index =
      land (sown_board board pit_index) (landing_index board pit_index)
        (decide (pit_index ≤ 5)) := rfl

theorem next_pit_index_lt (pit_index : Nat) (is_ac_turn : Bool) :
    next_pit_index pit_index is_ac_turn < 14 := by
  unfold next_pit_index
  split
  · omega
  · split
    · omega
    · exact Nat.mod_lt _ (by omega)

theorem landing_index_lt (board : Board) (pit_index : Nat) :
    landing_index board pit_index < 14 :=
  next_pit_index_lt _ _

theorem getD_set_self (l : List Nat) (i : Nat) (v : Nat) (h : i < l.length) :
    (l.set i v).getD i 0 = v := by
  induction l generalizing i with
  | nil => simp at h
  | cons a t ih =>
    cases i with
    | zero => simp
    | succ j => simpa using ih j (by simpa using h)

theorem getD_set_ne (l : List Nat) (i j : Nat) (v : Nat) (h : i ≠ j) :
    (l.set i v).getD j 0 = l.getD j 0 := by
  induction l generalizing i j with
  | nil => simp
  | cons a t ih =>
    cases i with
    | zero =>
      cases j with
      | zero => exact absurd rfl h
      | succ k => simp
    | succ i' =>
      cases j with
      | zero => simp
      | succ k => simpa using ih i' k (by omega)

theorem length_bump (board : Board) (i : Nat) : (bump board i).length = board.length := by
  simp [bump]

theorem length_sow (is_ac_move : Bool) :
    ∀ (n : Nat) (board : Board) (pit_index : Nat),
      (sow is_ac_move board pit_index n).1.length = board.length
  | 0, board, pit_index => rfl
  | 1, board, pit_index => rfl
  | n + 2, board, pit_index => by
    rw [sow]
    rw [length_sow is_ac_move (n + 1)]
    simp [length_bump]

theorem length_land (board : Board) (pit_index : Nat) (is_ac_move : Bool) :
    (land board pit_index is_ac_move).1.length = board.length := by
  unfold land
  split
  · simp [length_bump]
  · split
    · simp
    · simp [length_bump]

theorem length_play_move (board : Board) (pit_index : Nat) :
    (play_move board pit_index).1.length = board.length := by
  unfold play_move
  simp [length_land, length_sow]

theorem sum_set_add (l : List Nat) (i : Nat) (v : Nat) (h : i < l.length) :
    (l.set i v).sum + l.getD i 0 = l.sum + v := by
  induction l generalizing i with
  | nil => simp at h
  | cons a t ih =>
    cases i with
    | zero => simp [Nat.add_comm, Nat.add_left_comm]
    | succ j =>
      have := ih j (by simpa using h)
      simp only [List.set, List.sum_cons, List.getD_cons_succ]
      omega

theorem sum_bump (board : Board) (i : Nat) (h : i < board.length) :
    (bump board i).sum = board.sum + 1 := by
  have := sum_set_add board i (board.getD i 0 + 1) h
  unfold bump
  omega

theorem sum_sow (is_ac_move : Bool) :
    ∀ (n : Nat) (board : Board) (pit_index : Nat), board.length = 14 →
      (sow is_ac_move board pit_index n).1.sum = board.sum + (n - 1)
  | 0, board, pit_index, _ => by simp [sow]
  | 1, board, pit_index, _ => by simp [sow]
  | n + 2, board, pit_index, h => by
    rw [sow]
    rw [sum_sow is_ac_move (n + 1) _ _ (by simp [length_bump, h])]
    rw [sum_bump _ _ (by rw [h]; exact next_pit_index_lt _ _)]
    omega

theorem sum_land (board : Board) (pit_index : Nat) (is_ac_move : Bool)
    (hp : pit_index < 14) (hlen : board.length = 14) :
    (land board pit_index is_ac_move).1.sum = board.sum + 1 := by
  unfold land
  split
  · exact sum_bump _ _ (by omega)
  · split
    · next hcap =>
      have hp6 : ¬(pit_index = 6 ∨ pit_index = 13) := by assumption
      set st : Nat := if is_ac_move then 6 else 13 with hst
      have hstlt : st < 14 := by rw [hst]; split <;> omega
      have hstne : st ≠ 12 - pit_index := by
        rw [hst]; split <;> omega
      have h1 := sum_set_add board st
        (board.getD st 0 + 1 + board.getD (12 - pit_index) 0) (by omega)
      have hfl : 12 - pit_index < (board.set st
          (board.getD st 0 + 1 + board.getD (12 - pit_index) 0)).length := by
        simp [hlen]; omega
      have h2 := sum_set_add (board.set st
        (board.getD st 0 + 1 + board.getD (12 - pit_index) 0)) (12 - pit_index) 0 hfl
      rw [getD_set_ne _ _ _ _ hstne] at h2
      simp only
      omega
    · exact sum_bump _ _ (by omega)

/-- C3 — Conservation: playing any legal move leaves the total number of seeds across
all 14 cells unchanged (spec §8, "Conservation"; `play_move`, source lines 83–120). -/
theorem play_move_sum (board : Board) (pit_index : Nat)
    (hlen : board.length = 14) (hleg : LegalMove board pit_index) :
    (play_move board pit_index).1.sum = board.sum := by
  obtain ⟨hrange, hne⟩ := hleg
  have hplt : pit_index < 14 := by omega
  have h0 := sum_set_add board pit_index 0 (by omega)
  have h1 := sum_sow (decide (pit_index ≤ 5)) (board.getD pit_index 0)
    (board.set pit_index 0) pit_index (by simpa using hlen)
  have h2 := sum_land
    (sow (decide (pit_index ≤ 5)) (board.set pit_index 0) pit_index
      (board.getD pit_index 0)).1
    (landing_index board pit_index) (decide (pit_index ≤ 5))
    (landing_index_lt board pit_index)
    (by rw [length_sow]; simpa using hlen)
  rw [play_move_decomp]
  unfold sown_board at h2 ⊢
  unfold landing_index at h2 ⊢
  rw [h2, h1]
  omega

/-- Witness for C3 at a concrete legal move: AlphaCala plays pit 2 of the initial
board (the spec's §8 concrete scenario). -/
theorem play_move_sum_witness :
    ([4, 4, 4, 4, 4, 4, 0, 4, 4, 4, 4, 4, 4, 0] : Board).length = 14 ∧
    LegalMove [4, 4, 4, 4, 4, 4, 0, 4, 4, 4, 4, 4, 4, 0] 2 ∧
    (play_move [4, 4, 4, 4, 4, 4, 0, 4, 4, 4, 4, 4, 4, 0] 2).1.sum =
      ([4, 4, 4, 4, 4, 4, 0, 4, 4, 4, 4, 4, 4, 0] : Board).sum :=
  ⟨by decide, by decide,
    play_move_sum [4, 4, 4, 4, 4, 4, 0, 4, 4, 4, 4, 4, 4, 0] 2 (by decide) (by decide)⟩

theorem getD_bump_self (board : Board) (i : Nat) (h : i < board.length) :
    (bump board i).getD i 0 = board.getD i 0 + 1 :=
  getD_set_self board i _ h

theorem own_side_iff (i L : Nat) (hL : L < 14) (h6 : L ≠ 6) (h13 : L ≠ 13) :
    (own_side i L ↔ decide (L ≤ 5) = decide (i ≤ 5)) := by
  by_cases hi : i ≤ 5 <;> simp [own_side, hi, decide_eq_decide] <;> omega

/-- C2 — Extra-turn exactness: `play_move` returns `true` exactly when the last sown
seed lands on index 6 or 13, and in that case that store gains exactly one seed; in
every other case it returns `false` (spec §8, "Extra turn exactness"; source lines
95–101). -/
theorem extra_turn_exactness (board : Board) (pit_index : Nat)
    (hlen : board.length = 14) (hleg : LegalMove board pit_index) :
    ((play_move board pit_index).2 = true ↔
      landing_index board pit_index = 6 ∨ landing_index board pit_index = 13) ∧
    ((landing_index board pit_index = 6 ∨ landing_index board pit_index = 13) →
      (play_move board pit_index).1 =
        bump (sown_board board pit_index) (landing_index board pit_index) ∧
      (play_move board pit_index).1.getD (landing_index board pit_index) 0 =
        (sown_board board pit_index).getD (landing_index board pit_index) 0 + 1) ∧
    (¬(landing_index board pit_index = 6 ∨ landing_index board pit_index = 13) →
      (play_move board pit_index).2 = false) := by
  have hlenB : (sown_board board pit_index).length = 14 := by
    unfold sown_board; rw [length_sow]; simpa using hlen
  rw [play_move_decomp]
  unfold land
  split
  · next hst =>
    refine ⟨by simp [hst], fun _ => ⟨rfl, ?_⟩, fun h => absurd hst h⟩
    exact getD_bump_self _ _ (by rw [hlenB]; rcases hst with h | h <;> omega)
  · next hst =>
    split <;>
      exact ⟨by simp [hst], fun h => absurd h hst, fun _ => rfl⟩

/-- Witness for C2 at the spec's §8 scenario: pit 5 holds one seed, AlphaCala plays it,
the seed lands in store 6 and an extra turn is granted. -/
theorem extra_turn_exactness_witness :
    ([0, 0, 0, 0, 0, 1, 0, 4, 4, 4, 4, 4, 4, 0] : Board).length = 14 ∧
    LegalMove [0, 0, 0, 0, 0, 1, 0, 4, 4, 4, 4, 4, 4, 0] 5 ∧
    (((play_move [0, 0, 0, 0, 0, 1, 0, 4, 4, 4, 4, 4, 4, 0] 5).2 = true ↔
      landing_index [0, 0, 0, 0, 0, 1, 0, 4, 4, 4, 4, 4, 4, 0] 5 = 6 ∨
        landing_index [0, 0, 0, 0, 0, 1, 0, 4, 4, 4, 4, 4, 4, 0] 5 = 13) ∧
     ((landing_index [0, 0, 0, 0, 0, 1, 0, 4, 4, 4, 4, 4, 4, 0] 5 = 6 ∨
        landing_index [0, 0, 0, 0, 0, 1, 0, 4, 4, 4, 4, 4, 4, 0] 5 = 13) →
      (play_move [0, 0, 0, 0, 0, 1, 0, 4, 4, 4, 4, 4, 4, 0] 5).1 =
        bump (sown_board [0, 0, 0, 0, 0, 1, 0, 4, 4, 4, 4, 4, 4, 0] 5)
          (landing_index [0, 0, 0, 0, 0, 1, 0, 4, 4, 4, 4, 4, 4, 0] 5) ∧
      (play_move [0, 0, 0, 0, 0, 1, 0, 4, 4, 4, 4, 4, 4, 0] 5).1.getD
          (landing_index [0, 0, 0, 0, 0, 1, 0, 4, 4, 4, 4, 4, 4, 0] 5) 0 =
        (sown_board [0, 0, 0, 0, 0, 1, 0, 4, 4, 4, 4, 4, 4, 0] 5).getD
          (landing_index [0, 0, 0, 0, 0, 1, 0, 4, 4, 4, 4, 4, 4, 0] 5) 0 + 1) ∧
     (¬(landing_index [0, 0, 0, 0, 0, 1, 0, 4, 4, 4, 4, 4, 4, 0] 5 = 6 ∨
        landing_index [0, 0, 0, 0, 0, 1, 0, 4, 4, 4, 4, 4, 4, 0] 5 = 13) →
      (play_move [0, 0, 0, 0, 0, 1, 0, 4, 4, 4, 4, 4, 4, 0] 5).2 = false)) :=
  ⟨by decide, by decide,
    extra_turn_exactness [0, 0, 0, 0, 0, 1, 0, 4, 4, 4, 4, 4, 4, 0] 5 (by decide) (by decide)⟩

/-- C1 — Capture exactness: on a non-store landing, a capture (the mover's store gains
`1 + facing`, the facing pit is zeroed, the landing pit stays at zero) happens exactly
when the landing cell held 0 before the last seed arrived, lies on the mover's own
side, and the facing pit `12 - landing` is non-empty; in every other non-store landing
the landing pit simply gains exactly one seed (spec §8, "Capture exactness"; source
lines 103–119). -/
theorem capture_exactness (board : Board) (pit_index : Nat)
    (hlen : board.length = 14) (hleg : LegalMove board pit_index)
    (hns : landing_index board pit_index ≠ 6 ∧ landing_index board pit_index ≠ 13) :
    (capture_cond board pit_index →
      (play_move board pit_index).1.getD (if pit_index ≤ 5 then 6 else 13) 0 =
        (sown_board board pit_index).getD (if pit_index ≤ 5 then 6 else 13) 0 + 1 +
          (sown_board board pit_index).getD (12 - landing_index board pit_index) 0 ∧
      (play_move board pit_index).1.getD (12 - landing_index board pit_index) 0 = 0 ∧
      (play_move board pit_index).1.getD (landing_index board pit_index) 0 = 0) ∧
    (¬capture_cond board pit_index →
      (play_move board pit_index).1 =
        bump (sown_board board pit_index) (landing_index board pit_index) ∧
      (play_move board pit_index).1.getD (landing_index board pit_index) 0 =
        (sown_board board pit_index).getD (landing_index board pit_index) 0 + 1) := by
  obtain ⟨hns6, hns13⟩ := hns
  have hL : landing_index board pit_index < 14 := landing_index_lt board pit_index
  have hlenB : (sown_board board pit_index).length = 14 := by
    unfold sown_board; rw [length_sow]; simpa using hlen
  have hcode : capture_cond board pit_index ↔
      ((sown_board board pit_index).getD (landing_index board pit_index) 0 = 0 ∧
        0 < (sown_board board pit_index).getD (12 - landing_index board pit_index) 0 ∧
        decide (landing_index board pit_index ≤ 5) = decide (pit_index ≤ 5)) := by
    unfold capture_cond
    rw [own_side_iff pit_index (landing_index board pit_index) hL hns6 hns13]
    tauto
  have hstore : (if (decide (pit_index ≤ 5) : Bool) then (6 : Nat) else 13) =
      (if pit_index ≤ 5 then 6 else 13) := by
    by_cases h : pit_index ≤ 5 <;> simp [h]
  rw [play_move_decomp]
  unfold land
  split
  · next hst => exact absurd hst (by tauto)
  · split
    · next hcap =>
      refine ⟨fun _ => ?_, fun hno => absurd (hcode.mpr hcap) hno⟩
      obtain ⟨hz, hf, _⟩ := hcap
      set B := sown_board board pit_index with hB
      set L := landing_index board pit_index with hLdef
      have hstne : (if pit_index ≤ 5 then (6 : Nat) else 13) ≠ 12 - L := by
        split <;> omega
      have hLst : L ≠ (if pit_index ≤ 5 then (6 : Nat) else 13) := by
        split <;> omega
      have hLF : L ≠ 12 - L := by omega
      simp only [hstore]
      refine ⟨?_, ?_, ?_⟩
      · rw [getD_set_ne _ _ _ _ hstne.symm,
          getD_set_self _ _ _ (by rw [hlenB]; split <;> omega)]
      · rw [getD_set_self _ _ _ (by rw [List.length_set, hlenB]; omega)]
      · rw [getD_set_ne _ _ _ _ hLF.symm, getD_set_ne _ _ _ _ hLst.symm, hz]
    · next hncap =>
      refine ⟨fun hcap => absurd (hcode.mp hcap) hncap, fun _ => ⟨rfl, ?_⟩⟩
      exact getD_bump_self _ _ (by omega)

/-- Witness for C1 at a concrete capturing move: AlphaCala plays pit 0 holding two
seeds, the last seed lands on its empty pit 2, and the 5 seeds facing it in pit 10 are
captured together with the landed seed. -/
theorem capture_exactness_witness :
    ([2, 1, 0, 1, 1, 1, 0, 1, 1, 1, 5, 1, 1, 0] : Board).length = 14 ∧
    LegalMove [2, 1, 0, 1, 1, 1, 0, 1, 1, 1, 5, 1, 1, 0] 0 ∧
    capture_cond [2, 1, 0, 1, 1, 1, 0, 1, 1, 1, 5, 1, 1, 0] 0 ∧
    ((capture_cond [2, 1, 0, 1, 1, 1, 0, 1, 1, 1, 5, 1, 1, 0] 0 →
      (play_move [2, 1, 0, 1, 1, 1, 0, 1, 1, 1, 5, 1, 1, 0] 0).1.getD 6 0 =
        (sown_board [2, 1, 0, 1, 1, 1, 0, 1, 1, 1, 5, 1, 1, 0] 0).getD 6 0 + 1 +
          (sown_board [2, 1, 0, 1, 1, 1, 0, 1, 1, 1, 5, 1, 1, 0] 0).getD
            (12 - landing_index [2, 1, 0, 1, 1, 1, 0, 1, 1, 1, 5, 1, 1, 0] 0) 0 ∧
      (play_move [2, 1, 0, 1, 1, 1, 0, 1, 1, 1, 5, 1, 1, 0] 0).1.getD
        (12 - landing_index [2, 1, 0, 1, 1, 1, 0, 1, 1, 1, 5, 1, 1, 0] 0) 0 = 0 ∧
      (play_move [2, 1, 0, 1, 1, 1, 0, 1, 1, 1, 5, 1, 1, 0] 0).1.getD
        (landing_index [2, 1, 0, 1, 1, 1, 0, 1, 1, 1, 5, 1, 1, 0] 0) 0 = 0)) :=
  ⟨by decide, by decide, by decide, by
    have h := capture_exactness [2, 1, 0, 1, 1, 1, 0, 1, 1, 1, 5, 1, 1, 0] 0
      (by decide) (by decide) (by decide)
    simpa using h.1⟩

/-- C8 — Single-seed move: a move from a pit holding exactly one seed sows no
intermediate seed; it is the landing rule applied directly at `next_pit_index` of the
source pit on the board with the source zeroed (spec §8, "Single-seed move"; source
lines 86–95). -/
theorem single_seed_move (board : Board) (pit_index : Nat)
    (hrange : pit_index ≤ 5 ∨ (7 ≤ pit_index ∧ pit_index ≤ 12))
    (h1 : board.getD pit_index 0 = 1) :
    play_move board pit_index =
      land (board.set pit_index 0) (next_pit_index pit_index (decide (pit_index ≤ 5)))
        (decide (pit_index ≤ 5)) ∧
    sown_board board pit_index = board.set pit_index 0 ∧
    landing_index board pit_index =
      next_pit_index pit_index (decide (pit_index ≤ 5)) := by
  refine ⟨?_, ?_, ?_⟩ <;> simp only [play_move, sown_board, landing_index, h1, sow]

/-- Witness for C8 at the spec's §8 scenario: pit 5 holds one seed; the move teleports
it straight to `next_pit_index 5 true = 6`. -/
theorem single_seed_move_witness :
    (0 ≤ 5 ∨ (7 ≤ 0 ∧ 0 ≤ 12)) ∧
    ([1, 3, 0, 0, 0, 0, 0, 2, 0, 0, 0, 0, 0, 0] : Board).getD 0 0 = 1 ∧
    (play_move [1, 3, 0, 0, 0, 0, 0, 2, 0, 0, 0, 0, 0, 0] 0 =
      land (([1, 3, 0, 0, 0, 0, 0, 2, 0, 0, 0, 0, 0, 0] : Board).set 0 0)
        (next_pit_index 0 (decide (0 ≤ 5))) (decide (0 ≤ 5)) ∧
    sown_board [1, 3, 0, 0, 0, 0, 0, 2, 0, 0, 0, 0, 0, 0] 0 =
      ([1, 3, 0, 0, 0, 0, 0, 2, 0, 0, 0, 0, 0, 0] : Board).set 0 0 ∧
    landing_index [1, 3, 0, 0, 0, 0, 0, 2, 0, 0, 0, 0, 0, 0] 0 =
      next_pit_index 0 (decide (0 ≤ 5))) :=
  ⟨by decide, by decide,
    single_seed_move [1, 3, 0, 0, 0, 0, 0, 2, 0, 0, 0, 0, 0, 0] 0 (by decide) (by decide)⟩

/-- C10 — Move from an empty pit (undefined behavior per spec §7): the code still
returns normally and behaves exactly like a move from the same pit holding one seed —
the cursor advances once and the full landing rule applies — so the total seed count
grows by exactly one instead of being conserved (source lines 86–119). -/
theorem empty_pit_move (board : Board) (pit_index : Nat)
    (hlen : board.length = 14)
    (hrange : pit_index ≤ 5 ∨ (7 ≤ pit_index ∧ pit_index ≤ 12))
    (h0 : board.getD pit_index 0 = 0) :
    play_move board pit_index = play_move (board.set pit_index 1) pit_index ∧
    landing_index board pit_index =
      next_pit_index pit_index (decide (pit_index ≤ 5)) ∧
    (play_move board pit_index).1.sum = board.sum + 1 := by
  have hplt : pit_index < 14 := by omega
  have hget1 : (board.set pit_index 1).getD pit_index 0 = 1 :=
    getD_set_self board pit_index 1 (by omega)
  refine ⟨?_, ?_, ?_⟩
  · simp only [play_move, h0, hget1, sow, List.set_set]
  · simp only [landing_index, h0, sow]
  · have hz : (board.set pit_index 0).sum + 0 = board.sum + 0 := by
      have := sum_set_add board pit_index 0 (by omega)
      omega
    have hld := sum_land (board.set pit_index 0)
      (next_pit_index pit_index (decide (pit_index ≤ 5))) (decide (pit_index ≤ 5))
      (next_pit_index_lt _ _) (by simpa using hlen)
    have : play_move board pit_index =
        land (board.set pit_index 0)
          (next_pit_index pit_index (decide (pit_index ≤ 5))) (decide (pit_index ≤ 5)) := by
      simp only [play_move, h0, sow]
    rw [this, hld]
    omega

/-- Witness for C10: pit 0 is empty; the phantom seed lands in pit 1 and the total
grows from 9 to 10 seeds. -/
theorem empty_pit_move_witness :
    ([0, 3, 0, 0, 0, 0, 0, 2, 4, 0, 0, 0, 0, 0] : Board).length = 14 ∧
    (0 ≤ 5 ∨ (7 ≤ 0 ∧ 0 ≤ 12)) ∧
    ([0, 3, 0, 0, 0, 0, 0, 2, 4, 0, 0, 0, 0, 0] : Board).getD 0 0 = 0 ∧
    (play_move [0, 3, 0, 0, 0, 0, 0, 2, 4, 0, 0, 0, 0, 0] 0 =
      play_move (([0, 3, 0, 0, 0, 0, 0, 2, 4, 0, 0, 0, 0, 0] : Board).set 0 1) 0 ∧
    landing_index [0, 3, 0, 0, 0, 0, 0, 2, 4, 0, 0, 0, 0, 0] 0 =
      next_pit_index 0 (decide (0 ≤ 5)) ∧
    (play_move [0, 3, 0, 0, 0, 0, 0, 2, 4, 0, 0, 0, 0, 0] 0).1.sum =
      ([0, 3, 0, 0, 0, 0, 0, 2, 4, 0, 0, 0, 0, 0] : Board).sum + 1) :=
  ⟨by decide, by decide, by decide,
    empty_pit_move [0, 3, 0, 0, 0, 0, 0, 2, 4, 0, 0, 0, 0, 0] 0
      (by decide) (by decide) (by decide)⟩

/-- The position evaluation `board[6] - board[13]` (source line 140). -/
def store_eval (board : Board) : Int :=
  (board.getD 6 0 : Int) - (board.getD 13 0 : Int)

/-- The end-of-game evaluation when the side to move has no seeds: the other side's
remaining pit seeds are swept into its store, reflected only in the returned value
(source lines 188–200). -/
def game_over_eval (board : Board) (is_ac_turn : Bool) : Int :=
  if is_ac_turn then
    OPP_PITS.foldl (fun eval i => eval - (board.getD i 0 : Int)) (store_eval board)
  else
    AC_PITS.foldl (fun eval i => eval + (board.getD i 0 : Int)) (store_eval board)

/-- The maximizing `for (const auto i : AC_PITS)` loop of `minimax` (source lines
146–162): skip empty pits; evaluate the child through `child` (the recursive call at
depth − 1); a strictly better score replaces the running best; raise `alpha`; stop
once `beta ≤ alpha`.  Returns the final `(best_eval, best_move)`. -/
def loop_max (child : Board → Bool → Int → Int → Int) (board : Board) :
    List Nat → Int → Int → Int → Int → Int × Int
  | [], best_eval, best_move, _, _ => (best_eval, best_move)
  | i :: rest, best_eval, best_move, alpha, beta =>
    if board.getD i 0 = 0 then loop_max child board rest best_eval best_move alpha beta
    else
      let pm := play_move board i
      let tmp_eval := child pm.1 pm.2 alpha beta
      let best_eval2 := if best_eval < tmp_eval then tmp_eval else best_eval
      let best_move2 := if best_eval < tmp_eval then (i : Int) else best_move
      let alpha2 := max alpha tmp_eval
      if beta ≤ alpha2 then (best_eval2, best_move2)
      else loop_max child board rest best_eval2 best_move2 alpha2 beta

/-- The minimizing `for (const auto i : OPP_PITS)` loop of `minimax` (source lines
164–179), symmetric to `loop_max` on `beta`. -/
def loop_min (child : Board → Bool → Int → Int → Int) (board : Board) :
    List Nat → Int → Int → Int → Int → Int × Int
  | [], best_eval, best_move, _, _ => (best_eval, best_move)
  | i :: rest, best_eval, best_move, alpha, beta =>
    if board.getD i 0 = 0 then loop_min child board rest best_eval best_move alpha beta
    else
      let pm := play_move board i
      let tmp_eval := child pm.1 pm.2 alpha beta
      let best_eval2 := if tmp_eval < best_eval then tmp_eval else best_eval
      let best_move2 := if tmp_eval < best_eval then (i : Int) else best_move
      let beta2 := min beta tmp_eval
      if beta2 ≤ alpha then (best_eval2, best_move2)
      else loop_min child board rest best_eval2 best_move2 alpha beta2

/-- Alpha-beta minimax (`minimax` in the source).  The result is the returned `int`
paired with the value stored through `move_out` when the pointer is non-null: `none`
records that the `depth == 0` branch returns before the `*move_out = best_move` write,
`some m` that `m` is written.  Recursive calls pass `nullptr`, so they use only the
first component.  On AlphaCala's turn the child keeps the turn exactly when the move
granted an extra turn (`go_again`); on the opponent's turn the flag is negated
(`!go_again`), as at source lines 153 and 170. -/
def minimax : Nat → Board → Bool → Int → Int → Int × Option Int
  | 0, board, _, _, _ => (store_eval board, none)
  | depth + 1, board, is_ac_turn, alpha, beta =>
    let r :=
      if is_ac_turn then
        loop_max (fun b t a be => (minimax depth b t a be).1) board AC_PITS (-99) (-1)
          alpha beta
      else
        loop_min (fun b t a be => (minimax depth b (!t) a be).1) board OPP_PITS 99 (-1)
          alpha beta
    if r.2 = -1 then (game_over_eval board is_ac_turn, some (-1))
    else (r.1, some r.2)

/-- The best-move query as the orchestration layer issues it (`minimax(board,
is_ac_turn, depth, &move)` with the default window `alpha = -99`, `beta = 99`). -/
def best_move (board : Board) (is_ac_turn : Bool) (depth : Nat) : Int × Option Int :=
  minimax depth board is_ac_turn (-99) 99

/-- The recursive evaluation a maximizing node applies to a child position. -/
def ac_child (depth : Nat) (b : Board) (t : Bool) (a be : Int) : Int :=
  (minimax depth b t a be).1

/-- The recursive evaluation a minimizing node applies to a child position (the turn
flag it receives is `go_again`, negated before the recursive call). -/
def opp_child (depth : Nat) (b : Board) (t : Bool) (a be : Int) : Int :=
  (minimax depth b (!t) a be).1

theorem minimax_succ (depth : Nat) (board : Board) (is_ac_turn : Bool) (alpha beta : Int) :
    minimax (depth + 1) board is_ac_turn alpha beta =
      (let r :=
        if is_ac_turn then
          loop_max (ac_child depth) board AC_PITS (-99) (-1) alpha beta
        else
          loop_min (opp_child depth) board OPP_PITS 99 (-1) alpha beta
      if r.2 = -1 then (game_over_eval board is_ac_turn, some (-1))
      else (r.1, some r.2)) := rfl

theorem minimax_succ_true (depth : Nat) (board : Board) (alpha beta : Int) :
    minimax (depth + 1) board true alpha beta =
      (if (loop_max (ac_child depth) board AC_PITS (-99) (-1) alpha beta).2 = -1 then
        (game_over_eval board true, some (-1))
      else
        ((loop_max (ac_child depth) board AC_PITS (-99) (-1) alpha beta).1,
          some (loop_max (ac_child depth) board AC_PITS (-99) (-1) alpha beta).2)) := rfl

theorem minimax_succ_false (depth : Nat) (board : Board) (alpha beta : Int) :
    minimax (depth + 1) board false alpha beta =
      (if (loop_min (opp_child depth) board OPP_PITS 99 (-1) alpha beta).2 = -1 then
        (game_over_eval board false, some (-1))
      else
        ((loop_min (opp_child depth) board OPP_PITS 99 (-1) alpha beta).1,
          some (loop_min (opp_child depth) board OPP_PITS 99 (-1) alpha beta).2)) := rfl

/-- C6 (counterexample) — at depth 0 the code returns before the `*move_out =
best_move` statement, so the sentinel `-1` is never written through the move output:
on the initial board the move component of the result is `none` (no write), not
`some (-1)` as the claim states. -/
theorem depth0_no_sentinel_cex :
    (minimax 0 [4, 4, 4, 4, 4, 4, 0, 4, 4, 4, 4, 4, 4, 0] true (-99) 99).2 = none ∧
    (minimax 0 [4, 4, 4, 4, 4, 4, 0, 4, 4, 4, 4, 4, 4, 0] true (-99) 99).2 ≠
      some (-1) := by
  constructor
  · rfl
  · decide

/-- C6 (amended) — depth-0 exactness: for every board, turn flag and window, `minimax`
at depth 0 returns the evaluation `board[6] - board[13]` and performs no write at all
through the move output (rather than writing the no-move sentinel): the `depth == 0`
branch, source lines 139–141, returns before the `*move_out` store at lines 182–184. -/
theorem depth0_eval (board : Board) (is_ac_turn : Bool) (alpha beta : Int) :
    minimax 0 board is_ac_turn alpha beta =
      ((board.getD 6 0 : Int) - (board.getD 13 0 : Int), none) := rfl

theorem loop_max_all_empty (child : Board → Bool → Int → Int → Int) (board : Board) :
    ∀ (l : List Nat) (be bm alpha beta : Int), (∀ i ∈ l, board.getD i 0 = 0) →
      loop_max child board l be bm alpha beta = (be, bm)
  | [], _, _, _, _, _ => rfl
  | i :: rest, be, bm, alpha, beta, h => by
    rw [loop_max]
    rw [if_pos (h i (by simp))]
    exact loop_max_all_empty child board rest be bm alpha beta
      (fun j hj => h j (by simp [hj]))

theorem loop_min_all_empty (child : Board → Bool → Int → Int → Int) (board : Board) :
    ∀ (l : List Nat) (be bm alpha beta : Int), (∀ i ∈ l, board.getD i 0 = 0) →
      loop_min child board l be bm alpha beta = (be, bm)
  | [], _, _, _, _, _ => rfl
  | i :: rest, be, bm, alpha, beta, h => by
    rw [loop_min]
    rw [if_pos (h i (by simp))]
    exact loop_min_all_empty child board rest be bm alpha beta
      (fun j hj => h j (by simp [hj]))

theorem foldl_sub_sum (board : Board) :
    ∀ (l : List Nat) (x : Int),
      l.foldl (fun eval i => eval - (board.getD i 0 : Int)) x =
        x - (l.map fun i => (board.getD i 0 : Int)).sum
  | [], x => by simp
  | i :: rest, x => by
    rw [List.foldl_cons, foldl_sub_sum board rest]
    simp
    ring

theorem foldl_add_sum (board : Board) :
    ∀ (l : List Nat) (x : Int),
      l.foldl (fun eval i => eval + (board.getD i 0 : Int)) x =
        x + (l.map fun i => (board.getD i 0 : Int)).sum
  | [], x => by simp
  | i :: rest, x => by
    rw [List.foldl_cons, foldl_add_sum board rest]
    simp
    ring

/-- C4 — No-legal-move terminal: when every pit of the side to move is empty and the
depth is at least 1, `minimax` writes the no-move sentinel `-1` through the move
output and returns `board[6] - board[13]` adjusted by sweeping the other side's
remaining pit seeds into that side's store — subtracted when the opponent sweeps
(AlphaCala to move), added when AlphaCala sweeps.  The board itself is a read-only
argument of the evaluation, so it is untouched by the sweep (source lines 188–201). -/
theorem minimax_no_moves (board : Board) (is_ac_turn : Bool) (depth : Nat)
    (alpha beta : Int) (hd : 1 ≤ depth)
    (hempty : ∀ i ∈ (if is_ac_turn then AC_PITS else OPP_PITS), board.getD i 0 = 0) :
    minimax depth board is_ac_turn alpha beta =
      (if is_ac_turn then
        store_eval board - ((OPP_PITS.map fun i => (board.getD i 0 : Int)).sum)
      else
        store_eval board + ((AC_PITS.map fun i => (board.getD i 0 : Int)).sum),
      some (-1)) := by
  obtain ⟨d, rfl⟩ : ∃ d, depth = d + 1 := ⟨depth - 1, by omega⟩
  cases is_ac_turn with
  | true =>
    rw [minimax_succ_true,
      loop_max_all_empty (ac_child d) board AC_PITS (-99) (-1) alpha beta
        (by simpa using hempty)]
    rw [if_pos (show ((-99 : Int), (-1 : Int)).2 = -1 from rfl)]
    have hg : game_over_eval board true =
        store_eval board - ((OPP_PITS.map fun i => (board.getD i 0 : Int)).sum) := by
      unfold game_over_eval
      rw [if_pos rfl, foldl_sub_sum]
    rw [hg, if_pos rfl]
  | false =>
    rw [minimax_succ_false,
      loop_min_all_empty (opp_child d) board OPP_PITS 99 (-1) alpha beta
        (by simpa using hempty)]
    rw [if_pos (show ((99 : Int), (-1 : Int)).2 = -1 from rfl)]
    have hg : game_over_eval board false =
        store_eval board + ((AC_PITS.map fun i => (board.getD i 0 : Int)).sum) := by
      unfold game_over_eval
      rw [if_neg (by simp), foldl_add_sum]
    rw [hg, if_neg (by simp)]

/-- Witness for C4: AlphaCala's six pits are empty at depth 3; the opponent's 7
remaining pit seeds are swept into its store, giving evaluation 5 − (2 + 7) = −4. -/
theorem minimax_no_moves_witness :
    (1 ≤ 3) ∧
    (∀ i ∈ (if true then AC_PITS else OPP_PITS),
      ([0, 0, 0, 0, 0, 0, 5, 1, 2, 3, 0, 0, 1, 2] : Board).getD i 0 = 0) ∧
    minimax 3 [0, 0, 0, 0, 0, 0, 5, 1, 2, 3, 0, 0, 1, 2] true (-99) 99 =
      (if true then
        store_eval [0, 0, 0, 0, 0, 0, 5, 1, 2, 3, 0, 0, 1, 2] -
          ((OPP_PITS.map fun i =>
            (([0, 0, 0, 0, 0, 0, 5, 1, 2, 3, 0, 0, 1, 2] : Board).getD i 0 : Int)).sum)
      else
        store_eval [0, 0, 0, 0, 0, 0, 5, 1, 2, 3, 0, 0, 1, 2] +
          ((AC_PITS.map fun i =>
            (([0, 0, 0, 0, 0, 0, 5, 1, 2, 3, 0, 0, 1, 2] : Board).getD i 0 : Int)).sum),
      some (-1)) :=
  ⟨by omega, by decide,
    minimax_no_moves [0, 0, 0, 0, 0, 0, 5, 1, 2, 3, 0, 0, 1, 2] true 3 (-99) 99
      (by omega) (by decide)⟩

theorem loop_max_move_mem (child : Board → Bool → Int → Int → Int) (board : Board) :
    ∀ (l : List Nat) (be bm alpha beta : Int),
      (loop_max child board l be bm alpha beta).2 = bm ∨
      ∃ i ∈ l, (loop_max child board l be bm alpha beta).2 = (i : Int) ∧
        board.getD i 0 ≠ 0
  | [], _, _, _, _ => Or.inl rfl
  | i :: rest, be, bm, alpha, beta => by
    rw [loop_max]
    by_cases hi : board.getD i 0 = 0
    · rw [if_pos hi]
      rcases loop_max_move_mem child board rest be bm alpha beta with h | ⟨j, hj, h⟩
      · exact Or.inl h
      · exact Or.inr ⟨j, by simp [hj], h⟩
    · rw [if_neg hi]
      simp only
      split
      · by_cases hlt : be < child (play_move board i).1 (play_move board i).2 alpha beta
        · exact Or.inr ⟨i, by simp, by simp [hlt], hi⟩
        · exact Or.inl (by simp [hlt])
      · rcases loop_max_move_mem child board rest
          (if be < child (play_move board i).1 (play_move board i).2 alpha beta
            then child (play_move board i).1 (play_move board i).2 alpha beta else be)
          (if be < child (play_move board i).1 (play_move board i).2 alpha beta
            then (i : Int) else bm)
          (max alpha (child (play_move board i).1 (play_move board i).2 alpha beta))
          beta with h | ⟨j, hj, h⟩
        · rw [h]
          by_cases hlt : be < child (play_move board i).1 (play_move board i).2 alpha beta
          · exact Or.inr ⟨i, by simp, by simp [hlt], hi⟩
          · exact Or.inl (by simp [hlt])
        · exact Or.inr ⟨j, by simp [hj], h⟩

theorem loop_min_move_mem (child : Board → Bool → Int → Int → Int) (board : Board) :
    ∀ (l : List Nat) (be bm alpha beta : Int),
      (loop_min child board l be bm alpha beta).2 = bm ∨
      ∃ i ∈ l, (loop_min child board l be bm alpha beta).2 = (i : Int) ∧
        board.getD i 0 ≠ 0
  | [], _, _, _, _ => Or.inl rfl
  | i :: rest, be, bm, alpha, beta => by
    rw [loop_min]
    by_cases hi : board.getD i 0 = 0
    · rw [if_pos hi]
      rcases loop_min_move_mem child board rest be bm alpha beta with h | ⟨j, hj, h⟩
      · exact Or.inl h
      · exact Or.inr ⟨j, by simp [hj], h⟩
    · rw [if_neg hi]
      simp only
      split
      · by_cases hlt : child (play_move board i).1 (play_move board i).2 alpha beta < be
        · exact Or.inr ⟨i, by simp, by simp [hlt], hi⟩
        · exact Or.inl (by simp [hlt])
      · rcases loop_min_move_mem child board rest
          (if child (play_move board i).1 (play_move board i).2 alpha beta < be
            then child (play_move board i).1 (play_move board i).2 alpha beta else be)
          (if child (play_move board i).1 (play_move board i).2 alpha beta < be
            then (i : Int) else bm)
          alpha
          (min beta (child (play_move board i).1 (play_move board i).2 alpha beta))
          with h | ⟨j, hj, h⟩
        · rw [h]
          by_cases hlt : child (play_move board i).1 (play_move board i).2 alpha beta < be
          · exact Or.inr ⟨i, by simp, by simp [hlt], hi⟩
          · exact Or.inl (by simp [hlt])
        · exact Or.inr ⟨j, by simp [hj], h⟩

/-- C9 — Reported moves are legal: whenever `minimax` writes a best move other than
the `-1` sentinel through the move output, that move is a pit index of the side to
move (0–5 on AlphaCala's turn, 7–12 on the opponent's) and that pit is non-empty on
the given board, so the orchestration layer always hands `play_move` a legal move
(source lines 143–184). -/
theorem minimax_reports_legal (board : Board) (is_ac_turn : Bool) (depth : Nat)
    (alpha beta : Int) (m : Int)
    (hm : (minimax depth board is_ac_turn alpha beta).2 = some m) (hne : m ≠ -1) :
    ∃ i : Nat, m = (i : Int) ∧ board.getD i 0 ≠ 0 ∧
      (if is_ac_turn then i ≤ 5 else 7 ≤ i ∧ i ≤ 12) := by
  cases depth with
  | zero => simp [minimax] at hm
  | succ d =>
    cases is_ac_turn with
    | true =>
      rw [minimax_succ_true] at hm
      by_cases hr : (loop_max (ac_child d) board AC_PITS (-99) (-1) alpha beta).2 = -1
      · rw [if_pos hr] at hm
        have hm' : (-1 : Int) = m := by simpa using hm
        exact absurd hm'.symm hne
      · rw [if_neg hr] at hm
        have hm' : (loop_max (ac_child d) board AC_PITS (-99) (-1) alpha beta).2 = m := by
          simpa using hm
        rcases loop_max_move_mem (ac_child d) board AC_PITS (-99) (-1) alpha beta with
          h | ⟨i, hi, h, hnz⟩
        · rw [h] at hm'
          exact absurd hm'.symm hne
        · refine ⟨i, by rw [← hm', h], hnz, ?_⟩
          rw [if_pos rfl]
          simp only [AC_PITS, List.mem_cons, List.mem_singleton, List.not_mem_nil,
            or_false] at hi
          rcases hi with rfl | rfl | rfl | rfl | rfl | rfl <;> omega
    | false =>
      rw [minimax_succ_false] at hm
      by_cases hr : (loop_min (opp_child d) board OPP_PITS 99 (-1) alpha beta).2 = -1
      · rw [if_pos hr] at hm
        have hm' : (-1 : Int) = m := by simpa using hm
        exact absurd hm'.symm hne
      · rw [if_neg hr] at hm
        have hm' : (loop_min (opp_child d) board OPP_PITS 99 (-1) alpha beta).2 = m := by
          simpa using hm
        rcases loop_min_move_mem (opp_child d) board OPP_PITS 99 (-1) alpha beta with
          h | ⟨i, hi, h, hnz⟩
        · rw [h] at hm'
          exact absurd hm'.symm hne
        · refine ⟨i, by rw [← hm', h], hnz, ?_⟩
          rw [if_neg (by simp)]
          simp only [OPP_PITS, List.mem_cons, List.mem_singleton, List.not_mem_nil,
            or_false] at hi
          rcases hi with rfl | rfl | rfl | rfl | rfl | rfl <;> omega

/-- The sequence of `(pit, tmp_eval)` pairs a maximizing node actually considers, in
scan order: empty pits are skipped, `alpha` evolves exactly as in `loop_max`, and the
sequence stops after the pair that triggers the `beta <= alpha` break. -/
def trace_max (child : Board → Bool → Int → Int → Int) (board : Board) :
    List Nat → Int → Int → List (Nat × Int)
  | [], _, _ => []
  | i :: rest, alpha, beta =>
    if board.getD i 0 = 0 then trace_max child board rest alpha beta
    else
      let pm := play_move board i
      let tmp_eval := child pm.1 pm.2 alpha beta
      (i, tmp_eval) ::
        (if beta ≤ max alpha tmp_eval then [] else trace_max child board rest
          (max alpha tmp_eval) beta)

/-- The sequence of `(pit, tmp_eval)` pairs a minimizing node actually considers. -/
def trace_min (child : Board → Bool → Int → Int → Int) (board : Board) :
    List Nat → Int → Int → List (Nat × Int)
  | [], _, _ => []
  | i :: rest, alpha, beta =>
    if board.getD i 0 = 0 then trace_min child board rest alpha beta
    else
      let pm := play_move board i
      let tmp_eval := child pm.1 pm.2 alpha beta
      (i, tmp_eval) ::
        (if min beta tmp_eval ≤ alpha then [] else trace_min child board rest
          alpha (min beta tmp_eval))

/-- The "only a strictly better score replaces the current best" folding rule of the
maximizing loop, applied to a trace of considered moves. -/
def strict_best_max (init : Int × Int) (tr : List (Nat × Int)) : Int × Int :=
  tr.foldl (fun acc p => if acc.1 < p.2 then (p.2, (p.1 : Int)) else acc) init

/-- The "only a strictly lower score replaces the current best" folding rule of the
minimizing loop. -/
def strict_best_min (init : Int × Int) (tr : List (Nat × Int)) : Int × Int :=
  tr.foldl (fun acc p => if p.2 < acc.1 then (p.2, (p.1 : Int)) else acc) init

theorem loop_max_eq_trace (child : Board → Bool → Int → Int → Int) (board : Board) :
    ∀ (l : List Nat) (be bm alpha beta : Int),
      loop_max child board l be bm alpha beta =
        strict_best_max (be, bm) (trace_max child board l alpha beta)
  | [], _, _, _, _ => rfl
  | i :: rest, be, bm, alpha, beta => by
    rw [loop_max, trace_max]
    by_cases hi : board.getD i 0 = 0
    · rw [if_pos hi, if_pos hi]
      exact loop_max_eq_trace child board rest be bm alpha beta
    · rw [if_neg hi, if_neg hi]
      simp only
      by_cases hbr : beta ≤ max alpha (child (play_move board i).1 (play_move board i).2
        alpha beta)
      · rw [if_pos hbr, if_pos hbr]
        by_cases h : be < child (play_move board i).1 (play_move board i).2 alpha beta <;>
          simp [strict_best_max, h]
      · rw [if_neg hbr, if_neg hbr]
        rw [loop_max_eq_trace child board rest]
        by_cases h : be < child (play_move board i).1 (play_move board i).2 alpha beta <;>
          simp [strict_best_max, h]

theorem loop_min_eq_trace (child : Board → Bool → Int → Int → Int) (board : Board) :
    ∀ (l : List Nat) (be bm alpha beta : Int),
      loop_min child board l be bm alpha beta =
        strict_best_min (be, bm) (trace_min child board l alpha beta)
  | [], _, _, _, _ => rfl
  | i :: rest, be, bm, alpha, beta => by
    rw [loop_min, trace_min]
    by_cases hi : board.getD i 0 = 0
    · rw [if_pos hi, if_pos hi]
      exact loop_min_eq_trace child board rest be bm alpha beta
    · rw [if_neg hi, if_neg hi]
      simp only
      by_cases hbr : min beta (child (play_move board i).1 (play_move board i).2
        alpha beta) ≤ alpha
      · rw [if_pos hbr, if_pos hbr]
        by_cases h : child (play_move board i).1 (play_move board i).2 alpha beta < be <;>
          simp [strict_best_min, h]
      · rw [if_neg hbr, if_neg hbr]
        rw [loop_min_eq_trace child board rest]
        by_cases h : child (play_move board i).1 (play_move board i).2 alpha beta < be <;>
          simp [strict_best_min, h]

theorem strict_best_max_spec :
    ∀ (tr : List (Nat × Int)) (be bm : Int),
      (strict_best_max (be, bm) tr = (be, bm) ∧ ∀ q ∈ tr, q.2 ≤ be) ∨
      (∃ xs p ys, tr = xs ++ p :: ys ∧
        strict_best_max (be, bm) tr = (p.2, (p.1 : Int)) ∧ be < p.2 ∧
        (∀ q ∈ xs, q.2 < p.2) ∧ (∀ q ∈ ys, q.2 ≤ p.2))
  | [], be, bm => Or.inl ⟨rfl, by simp⟩
  | p :: t, be, bm => by
    have hstep : strict_best_max (be, bm) (p :: t) =
        strict_best_max (if be < p.2 then (p.2, (p.1 : Int)) else (be, bm)) t := by
      by_cases h : be < p.2 <;> simp [strict_best_max, h]
    by_cases h : be < p.2
    · rw [if_pos h] at hstep
      rcases strict_best_max_spec t p.2 (p.1 : Int) with ⟨heq, hall⟩ | ⟨xs, q, ys, ht, hres, hlt, hxs, hys⟩
      · exact Or.inr ⟨[], p, t, by simp, by rw [hstep, heq], h, by simp, hall⟩
      · exact Or.inr ⟨p :: xs, q, ys, by rw [ht]; simp, by rw [hstep, hres], lt_trans h hlt,
          by intro x hx
             rcases List.mem_cons.mp hx with rfl | hx
             · exact hlt
             · exact hxs x hx,
          hys⟩
    · rw [if_neg h] at hstep
      rcases strict_best_max_spec t be bm with ⟨heq, hall⟩ | ⟨xs, q, ys, ht, hres, hlt, hxs, hys⟩
      · refine Or.inl ⟨by rw [hstep, heq], ?_⟩
        intro x hx
        rcases List.mem_cons.mp hx with rfl | hx
        · omega
        · exact hall x hx
      · exact Or.inr ⟨p :: xs, q, ys, by rw [ht]; simp, by rw [hstep, hres], hlt,
          by intro x hx
             rcases List.mem_cons.mp hx with rfl | hx
             · omega
             · exact hxs x hx,
          hys⟩

theorem strict_best_min_spec :
    ∀ (tr : List (Nat × Int)) (be bm : Int),
      (strict_best_min (be, bm) tr = (be, bm) ∧ ∀ q ∈ tr, be ≤ q.2) ∨
      (∃ xs p ys, tr = xs ++ p :: ys ∧
        strict_best_min (be, bm) tr = (p.2, (p.1 : Int)) ∧ p.2 < be ∧
        (∀ q ∈ xs, p.2 < q.2) ∧ (∀ q ∈ ys, p.2 ≤ q.2))
  | [], be, bm => Or.inl ⟨rfl, by simp⟩
  | p :: t, be, bm => by
    have hstep : strict_best_min (be, bm) (p :: t) =
        strict_best_min (if p.2 < be then (p.2, (p.1 : Int)) else (be, bm)) t := by
      by_cases h : p.2 < be <;> simp [strict_best_min, h]
    by_cases h : p.2 < be
    · rw [if_pos h] at hstep
      rcases strict_best_min_spec t p.2 (p.1 : Int) with ⟨heq, hall⟩ | ⟨xs, q, ys, ht, hres, hlt, hxs, hys⟩
      · exact Or.inr ⟨[], p, t, by simp, by rw [hstep, heq], h, by simp, hall⟩
      · exact Or.inr ⟨p :: xs, q, ys, by rw [ht]; simp, by rw [hstep, hres], lt_trans hlt h,
          by intro x hx
             rcases List.mem_cons.mp hx with rfl | hx
             · exact hlt
             · exact hxs x hx,
          hys⟩
    · rw [if_neg h] at hstep
      rcases strict_best_min_spec t be bm with ⟨heq, hall⟩ | ⟨xs, q, ys, ht, hres, hlt, hxs, hys⟩
      · refine Or.inl ⟨by rw [hstep, heq], ?_⟩
        intro x hx
        rcases List.mem_cons.mp hx with rfl | hx
        · omega
        · exact hall x hx
      · exact Or.inr ⟨p :: xs, q, ys, by rw [ht]; simp, by rw [hstep, hres], hlt,
          by intro x hx
             rcases List.mem_cons.mp hx with rfl | hx
             · omega
             · exact hxs x hx,
          hys⟩

/-- C5 — Determinism and tie-break: `minimax` is a pure function of board, turn and
depth, so the recommended move is reproducible by definition; this theorem pins the
tie-break down: whenever a move is reported, it is the FIRST pair, in the fixed scan
order `{5,4,3,2,1,0}` (AlphaCala) or `{12,11,10,9,8,7}` (opponent) recorded by the
trace of considered moves, whose score strictly beats every earlier considered score,
and no later considered score beats it — exactly because only a strictly better child
score replaces the current best (`tmp_eval > best_eval` / `tmp_eval < best_eval`,
source lines 155 and 172), so earlier-scanned pits win ties. -/
theorem minimax_tie_break (board : Board) (is_ac_turn : Bool) (d : Nat)
    (hm : (minimax (d + 1) board is_ac_turn (-99) 99).2 ≠ some (-1)) :
    ∃ xs p ys,
      (if is_ac_turn then trace_max (ac_child d) board AC_PITS (-99) 99
       else trace_min (opp_child d) board OPP_PITS (-99) 99) = xs ++ p :: ys ∧
      minimax (d + 1) board is_ac_turn (-99) 99 = (p.2, some (p.1 : Int)) ∧
      (∀ q ∈ xs, if is_ac_turn then q.2 < p.2 else p.2 < q.2) ∧
      (∀ q ∈ ys, if is_ac_turn then q.2 ≤ p.2 else p.2 ≤ q.2) := by
  cases is_ac_turn with
  | true =>
    rw [minimax_succ_true] at hm ⊢
    by_cases hr : (loop_max (ac_child d) board AC_PITS (-99) (-1) (-99) 99).2 = -1
    · rw [if_pos hr] at hm
      exact absurd rfl hm
    · rw [if_neg hr] at hm ⊢
      have heq := loop_max_eq_trace (ac_child d) board AC_PITS (-99) (-1) (-99) 99
      rcases strict_best_max_spec (trace_max (ac_child d) board AC_PITS (-99) 99)
          (-99) (-1) with ⟨hres, _⟩ | ⟨xs, p, ys, htr, hres, _, hxs, hys⟩
      · rw [heq, hres] at hr
        exact absurd rfl hr
      · refine ⟨xs, p, ys, by simpa using htr, ?_, ?_, ?_⟩
        · rw [heq, hres]
        · intro q hq
          simpa using hxs q hq
        · intro q hq
          simpa using hys q hq
  | false =>
    rw [minimax_succ_false] at hm ⊢
    by_cases hr : (loop_min (opp_child d) board OPP_PITS 99 (-1) (-99) 99).2 = -1
    · rw [if_pos hr] at hm
      exact absurd rfl hm
    · rw [if_neg hr] at hm ⊢
      have heq := loop_min_eq_trace (opp_child d) board OPP_PITS 99 (-1) (-99) 99
      rcases strict_best_min_spec (trace_min (opp_child d) board OPP_PITS (-99) 99)
          99 (-1) with ⟨hres, _⟩ | ⟨xs, p, ys, htr, hres, _, hxs, hys⟩
      · rw [heq, hres] at hr
        exact absurd rfl hr
      · refine ⟨xs, p, ys, by simpa using htr, ?_, ?_, ?_⟩
        · rw [heq, hres]
        · intro q hq
          simpa using hxs q hq
        · intro q hq
          simpa using hys q hq

/-- Witness for C5: a depth-1 AlphaCala search where pits 5 and 2 tie; the reported
move is the earlier-scanned pit 5. -/
theorem minimax_tie_break_witness :
    (minimax 1 [0, 0, 3, 0, 0, 1, 0, 2, 0, 0, 0, 0, 1, 0] true (-99) 99).2 ≠
      some (-1) ∧
    ∃ xs p ys,
      (if true then trace_max (ac_child 0) [0, 0, 3, 0, 0, 1, 0, 2, 0, 0, 0, 0, 1, 0]
        AC_PITS (-99) 99
       else trace_min (opp_child 0) [0, 0, 3, 0, 0, 1, 0, 2, 0, 0, 0, 0, 1, 0]
        OPP_PITS (-99) 99) = xs ++ p :: ys ∧
      minimax 1 [0, 0, 3, 0, 0, 1, 0, 2, 0, 0, 0, 0, 1, 0] true (-99) 99 =
        (p.2, some (p.1 : Int)) ∧
      (∀ q ∈ xs, if true then q.2 < p.2 else p.2 < q.2) ∧
      (∀ q ∈ ys, if true then q.2 ≤ p.2 else p.2 ≤ q.2) :=
  ⟨by decide,
    minimax_tie_break [0, 0, 3, 0, 0, 1, 0, 2, 0, 0, 0, 0, 1, 0] true 0 (by decide)⟩

/-- Plain unpruned fixed-depth minimax over the same `play_move` transition and the
same store-difference heuristic, written from the spec's §4.2 description with the
alpha-beta machinery removed: at depth 0 the score is the store difference; at a
terminal node (side to move empty) the other side's seeds are swept into its store;
otherwise the maximizing side takes the best (highest) child score over its non-empty
pits in scan order and the minimizing side the lowest, the child turn given by the
extra-turn result.  `-99`/`99` only seed the fold and act as minus/plus infinity. -/
def plain_minimax : Nat → Board → Bool → Int
  | 0, board, _ => store_eval board
  | depth + 1, board, is_ac_turn =>
    if is_ac_turn then
      if ∀ i ∈ AC_PITS, board.getD i 0 = 0 then game_over_eval board true
      else
        AC_PITS.foldl
          (fun acc i =>
            if board.getD i 0 = 0 then acc
            else max acc (plain_minimax depth (play_move board i).1 (play_move board i).2))
          (-99)
    else
      if ∀ i ∈ OPP_PITS, board.getD i 0 = 0 then game_over_eval board false
      else
        OPP_PITS.foldl
          (fun acc i =>
            if board.getD i 0 = 0 then acc
            else min acc (plain_minimax depth (play_move board i).1 (!(play_move board i).2)))
          99

/-- The maximizing fold of `plain_minimax`, exposed with an arbitrary accumulator. -/
def pf_max (depth : Nat) (board : Board) (l : List Nat) (acc : Int) : Int :=
  l.foldl
    (fun acc i =>
      if board.getD i 0 = 0 then acc
      else max acc (plain_minimax depth (play_move board i).1 (play_move board i).2))
    acc

/-- The minimizing fold of `plain_minimax`, exposed with an arbitrary accumulator. -/
def pf_min (depth : Nat) (board : Board) (l : List Nat) (acc : Int) : Int :=
  l.foldl
    (fun acc i =>
      if board.getD i 0 = 0 then acc
      else min acc (plain_minimax depth (play_move board i).1 (!(play_move board i).2)))
    acc

theorem plain_succ_true (depth : Nat) (board : Board) :
    plain_minimax (depth + 1) board true =
      (if ∀ i ∈ AC_PITS, board.getD i 0 = 0 then game_over_eval board true
       else pf_max depth board AC_PITS (-99)) := rfl

theorem plain_succ_false (depth : Nat) (board : Board) :
    plain_minimax (depth + 1) board false =
      (if ∀ i ∈ OPP_PITS, board.getD i 0 = 0 then game_over_eval board false
       else pf_min depth board OPP_PITS 99) := rfl

theorem pf_max_cons (depth : Nat) (board : Board) (i : Nat) (rest : List Nat) (acc : Int) :
    pf_max depth board (i :: rest) acc =
      pf_max depth board rest
        (if board.getD i 0 = 0 then acc
         else max acc (plain_minimax depth (play_move board i).1 (play_move board i).2)) := rfl

theorem pf_min_cons (depth : Nat) (board : Board) (i : Nat) (rest : List Nat) (acc : Int) :
    pf_min depth board (i :: rest) acc =
      pf_min depth board rest
        (if board.getD i 0 = 0 then acc
         else min acc (plain_minimax depth (play_move board i).1 (!(play_move board i).2))) := rfl

theorem pf_max_le (depth : Nat) (board : Board) :
    ∀ (l : List Nat) (acc : Int), acc ≤ pf_max depth board l acc
  | [], acc => le_refl _
  | i :: rest, acc => by
    rw [pf_max_cons]
    by_cases hi : board.getD i 0 = 0
    · rw [if_pos hi]
      exact pf_max_le depth board rest acc
    · rw [if_neg hi]
      exact le_trans (le_max_left _ _) (pf_max_le depth board rest _)

theorem pf_min_le (depth : Nat) (board : Board) :
    ∀ (l : List Nat) (acc : Int), pf_min depth board l acc ≤ acc
  | [], acc => le_refl _
  | i :: rest, acc => by
    rw [pf_min_cons]
    by_cases hi : board.getD i 0 = 0
    · rw [if_pos hi]
      exact pf_min_le depth board rest acc
    · rw [if_neg hi]
      exact le_trans (pf_min_le depth board rest _) (min_le_left _ _)

theorem pf_max_acc (depth : Nat) (board : Board) :
    ∀ (l : List Nat) (a c : Int),
      pf_max depth board l (max a c) = max (pf_max depth board l a) c
  | [], a, c => rfl
  | i :: rest, a, c => by
    rw [pf_max_cons, pf_max_cons]
    by_cases hi : board.getD i 0 = 0
    · rw [if_pos hi, if_pos hi]
      exact pf_max_acc depth board rest a c
    · rw [if_neg hi, if_neg hi]
      have h : max (max a c)
            (plain_minimax depth (play_move board i).1 (play_move board i).2) =
          max (max a (plain_minimax depth (play_move board i).1 (play_move board i).2)) c := by
        omega
      rw [h, pf_max_acc depth board rest]

theorem pf_min_acc (depth : Nat) (board : Board) :
    ∀ (l : List Nat) (a c : Int),
      pf_min depth board l (min a c) = min (pf_min depth board l a) c
  | [], a, c => rfl
  | i :: rest, a, c => by
    rw [pf_min_cons, pf_min_cons]
    by_cases hi : board.getD i 0 = 0
    · rw [if_pos hi, if_pos hi]
      exact pf_min_acc depth board rest a c
    · rw [if_neg hi, if_neg hi]
      have h : min (min a c)
            (plain_minimax depth (play_move board i).1 (!(play_move board i).2)) =
          min (min a (plain_minimax depth (play_move board i).1 (!(play_move board i).2))) c := by
        omega
      rw [h, pf_min_acc depth board rest]

theorem board_eq_14 (b : Board) (h : b.length = 14) :
    ∃ a0 a1 a2 a3 a4 a5 a6 a7 a8 a9 a10 a11 a12 a13 : Nat,
      b = [a0, a1, a2, a3, a4, a5, a6, a7, a8, a9, a10, a11, a12, a13] := by
  rcases b with _ | ⟨a0, b⟩; · simp at h
  rcases b with _ | ⟨a1, b⟩; · simp at h
  rcases b with _ | ⟨a2, b⟩; · simp at h
  rcases b with _ | ⟨a3, b⟩; · simp at h
  rcases b with _ | ⟨a4, b⟩; · simp at h
  rcases b with _ | ⟨a5, b⟩; · simp at h
  rcases b with _ | ⟨a6, b⟩; · simp at h
  rcases b with _ | ⟨a7, b⟩; · simp at h
  rcases b with _ | ⟨a8, b⟩; · simp at h
  rcases b with _ | ⟨a9, b⟩; · simp at h
  rcases b with _ | ⟨a10, b⟩; · simp at h
  rcases b with _ | ⟨a11, b⟩; · simp at h
  rcases b with _ | ⟨a12, b⟩; · simp at h
  rcases b with _ | ⟨a13, b⟩; · simp at h
  rcases b with _ | ⟨a14, b⟩
  · exact ⟨a0, a1, a2, a3, a4, a5, a6, a7, a8, a9, a10, a11, a12, a13, rfl⟩
  · simp at h

theorem store_eval_bound (b : Board) (hlen : b.length = 14) (hsum : b.sum ≤ 48) :
    -48 ≤ store_eval b ∧ store_eval b ≤ 48 := by
  obtain ⟨a0, a1, a2, a3, a4, a5, a6, a7, a8, a9, a10, a11, a12, a13, rfl⟩ :=
    board_eq_14 b hlen
  have he : store_eval [a0, a1, a2, a3, a4, a5, a6, a7, a8, a9, a10, a11, a12, a13] =
      (a6 : Int) - (a13 : Int) := rfl
  have hs : ([a0, a1, a2, a3, a4, a5, a6, a7, a8, a9, a10, a11, a12, a13] : Board).sum =
      a0 + a1 + a2 + a3 + a4 + a5 + a6 + a7 + a8 + a9 + a10 + a11 + a12 + a13 := by
    simp [Nat.add_assoc]
  rw [he]
  rw [hs] at hsum
  omega

theorem game_over_eval_bound (b : Board) (is_ac_turn : Bool)
    (hlen : b.length = 14) (hsum : b.sum ≤ 48) :
    -48 ≤ game_over_eval b is_ac_turn ∧ game_over_eval b is_ac_turn ≤ 48 := by
  obtain ⟨a0, a1, a2, a3, a4, a5, a6, a7, a8, a9, a10, a11, a12, a13, rfl⟩ :=
    board_eq_14 b hlen
  have hs : ([a0, a1, a2, a3, a4, a5, a6, a7, a8, a9, a10, a11, a12, a13] : Board).sum =
      a0 + a1 + a2 + a3 + a4 + a5 + a6 + a7 + a8 + a9 + a10 + a11 + a12 + a13 := by
    simp [Nat.add_assoc]
  rw [hs] at hsum
  cases is_ac_turn with
  | true =>
    have he : game_over_eval [a0, a1, a2, a3, a4, a5, a6, a7, a8, a9, a10, a11, a12, a13]
        true = ((a6 : Int) - (a13 : Int)) - (a12 : Int) - (a11 : Int) - (a10 : Int) -
          (a9 : Int) - (a8 : Int) - (a7 : Int) := rfl
    rw [he]
    omega
  | false =>
    have he : game_over_eval [a0, a1, a2, a3, a4, a5, a6, a7, a8, a9, a10, a11, a12, a13]
        false = ((a6 : Int) - (a13 : Int)) + (a5 : Int) + (a4 : Int) + (a3 : Int) +
          (a2 : Int) + (a1 : Int) + (a0 : Int) := rfl
    rw [he]
    omega

theorem AC_PITS_range : ∀ i ∈ AC_PITS, i ≤ 5 ∨ (7 ≤ i ∧ i ≤ 12) := by decide

theorem OPP_PITS_range : ∀ i ∈ OPP_PITS, i ≤ 5 ∨ (7 ≤ i ∧ i ≤ 12) := by decide

theorem loop_max_skip (child : Board → Bool → Int → Int → Int) (board : Board)
    (i : Nat) (rest : List Nat) (be bm alpha beta : Int) (hi : board.getD i 0 = 0) :
    loop_max child board (i :: rest) be bm alpha beta =
      loop_max child board rest be bm alpha beta := by
  rw [loop_max, if_pos hi]

theorem loop_min_skip (child : Board → Bool → Int → Int → Int) (board : Board)
    (i : Nat) (rest : List Nat) (be bm alpha beta : Int) (hi : board.getD i 0 = 0) :
    loop_min child board (i :: rest) be bm alpha beta =
      loop_min child board rest be bm alpha beta := by
  rw [loop_min, if_pos hi]

theorem loop_max_cons (child : Board → Bool → Int → Int → Int) (board : Board)
    (i : Nat) (rest : List Nat) (be bm alpha beta : Int) (hi : board.getD i 0 ≠ 0) :
    loop_max child board (i :: rest) be bm alpha beta =
      (if beta ≤ max alpha (child (play_move board i).1 (play_move board i).2 alpha beta)
       then
        (if be < child (play_move board i).1 (play_move board i).2 alpha beta then
          (child (play_move board i).1 (play_move board i).2 alpha beta, (i : Int))
         else (be, bm))
       else
        loop_max child board rest
          (if be < child (play_move board i).1 (play_move board i).2 alpha beta then
            child (play_move board i).1 (play_move board i).2 alpha beta
           else be)
          (if be < child (play_move board i).1 (play_move board i).2 alpha beta then
            (i : Int)
           else bm)
          (max alpha (child (play_move board i).1 (play_move board i).2 alpha beta))
          beta) := by
  rw [loop_max, if_neg hi]
  by_cases h : be < child (play_move board i).1 (play_move board i).2 alpha beta <;>
    by_cases hbr :
      beta ≤ max alpha (child (play_move board i).1 (play_move board i).2 alpha beta) <;>
      simp [h, hbr]

theorem loop_min_cons (child : Board → Bool → Int → Int → Int) (board : Board)
    (i : Nat) (rest : List Nat) (be bm alpha beta : Int) (hi : board.getD i 0 ≠ 0) :
    loop_min child board (i :: rest) be bm alpha beta =
      (if min beta (child (play_move board i).1 (play_move board i).2 alpha beta) ≤ alpha
       then
        (if child (play_move board i).1 (play_move board i).2 alpha beta < be then
          (child (play_move board i).1 (play_move board i).2 alpha beta, (i : Int))
         else (be, bm))
       else
        loop_min child board rest
          (if child (play_move board i).1 (play_move board i).2 alpha beta < be then
            child (play_move board i).1 (play_move board i).2 alpha beta
           else be)
          (if child (play_move board i).1 (play_move board i).2 alpha beta < be then
            (i : Int)
           else bm)
          alpha
          (min beta (child (play_move board i).1 (play_move board i).2 alpha beta))) := by
  rw [loop_min, if_neg hi]
  by_cases h : child (play_move board i).1 (play_move board i).2 alpha beta < be <;>
    by_cases hbr :
      min beta (child (play_move board i).1 (play_move board i).2 alpha beta) ≤ alpha <;>
      simp [h, hbr]

theorem loop_max_ge_be (child : Board → Bool → Int → Int → Int) (board : Board) :
    ∀ (l : List Nat) (be bm alpha beta : Int),
      be ≤ (loop_max child board l be bm alpha beta).1
  | [], _, _, _, _ => le_refl _
  | i :: rest, be, bm, alpha, beta => by
    by_cases hi : board.getD i 0 = 0
    · rw [loop_max_skip child board i rest be bm alpha beta hi]
      exact loop_max_ge_be child board rest be bm alpha beta
    · rw [loop_max_cons child board i rest be bm alpha beta hi]
      by_cases hbr :
        beta ≤ max alpha (child (play_move board i).1 (play_move board i).2 alpha beta)
      · rw [if_pos hbr]
        by_cases h : be < child (play_move board i).1 (play_move board i).2 alpha beta
        · rw [if_pos h]
          exact le_of_lt h
        · rw [if_neg h]
      · rw [if_neg hbr]
        refine le_trans ?_ (loop_max_ge_be child board rest _ _ _ _)
        by_cases h : be < child (play_move board i).1 (play_move board i).2 alpha beta
        · rw [if_pos h]
          exact le_of_lt h
        · rw [if_neg h]

theorem loop_min_le_be (child : Board → Bool → Int → Int → Int) (board : Board) :
    ∀ (l : List Nat) (be bm alpha beta : Int),
      (loop_min child board l be bm alpha beta).1 ≤ be
  | [], _, _, _, _ => le_refl _
  | i :: rest, be, bm, alpha, beta => by
    by_cases hi : board.getD i 0 = 0
    · rw [loop_min_skip child board i rest be bm alpha beta hi]
      exact loop_min_le_be child board rest be bm alpha beta
    · rw [loop_min_cons child board i rest be bm alpha beta hi]
      by_cases hbr :
        min beta (child (play_move board i).1 (play_move board i).2 alpha beta) ≤ alpha
      · rw [if_pos hbr]
        by_cases h : child (play_move board i).1 (play_move board i).2 alpha beta < be
        · rw [if_pos h]
          exact le_of_lt h
        · rw [if_neg h]
      · rw [if_neg hbr]
        refine le_trans (loop_min_le_be child board rest _ _ _ _) ?_
        by_cases h : child (play_move board i).1 (play_move board i).2 alpha beta < be
        · rw [if_pos h]
          exact le_of_lt h
        · rw [if_neg h]

theorem loop_max_keep_ne (child : Board → Bool → Int → Int → Int) (board : Board) :
    ∀ (l : List Nat) (be bm alpha beta : Int), bm ≠ -1 →
      (loop_max child board l be bm alpha beta).2 ≠ -1
  | [], _, _, _, _, hbm => hbm
  | i :: rest, be, bm, alpha, beta, hbm => by
    by_cases hi : board.getD i 0 = 0
    · rw [loop_max_skip child board i rest be bm alpha beta hi]
      exact loop_max_keep_ne child board rest be bm alpha beta hbm
    · rw [loop_max_cons child board i rest be bm alpha beta hi]
      by_cases hbr :
        beta ≤ max alpha (child (play_move board i).1 (play_move board i).2 alpha beta)
      · rw [if_pos hbr]
        by_cases h : be < child (play_move board i).1 (play_move board i).2 alpha beta
        · rw [if_pos h]
          show (i : Int) ≠ -1
          omega
        · rw [if_neg h]
          exact hbm
      · rw [if_neg hbr]
        refine loop_max_keep_ne child board rest _ _ _ _ ?_
        by_cases h : be < child (play_move board i).1 (play_move board i).2 alpha beta
        · rw [if_pos h]
          omega
        · rw [if_neg h]
          exact hbm

theorem loop_min_keep_ne (child : Board → Bool → Int → Int → Int) (board : Board) :
    ∀ (l : List Nat) (be bm alpha beta : Int), bm ≠ -1 →
      (loop_min child board l be bm alpha beta).2 ≠ -1
  | [], _, _, _, _, hbm => hbm
  | i :: rest, be, bm, alpha, beta, hbm => by
    by_cases hi : board.getD i 0 = 0
    · rw [loop_min_skip child board i rest be bm alpha beta hi]
      exact loop_min_keep_ne child board rest be bm alpha beta hbm
    · rw [loop_min_cons child board i rest be bm alpha beta hi]
      by_cases hbr :
        min beta (child (play_move board i).1 (play_move board i).2 alpha beta) ≤ alpha
      · rw [if_pos hbr]
        by_cases h : child (play_move board i).1 (play_move board i).2 alpha beta < be
        · rw [if_pos h]
          show (i : Int) ≠ -1
          omega
        · rw [if_neg h]
          exact hbm
      · rw [if_neg hbr]
        refine loop_min_keep_ne child board rest _ _ _ _ ?_
        by_cases h : child (play_move board i).1 (play_move board i).2 alpha beta < be
        · rw [if_pos h]
          omega
        · rw [if_neg h]
          exact hbm

theorem loop_max_first_ne (child : Board → Bool → Int → Int → Int) (board : Board) :
    ∀ (l : List Nat) (alpha beta : Int), -99 ≤ alpha → beta ≤ 99 → alpha < beta →
      (∀ i ∈ l, board.getD i 0 ≠ 0 → ∀ a b', -99 ≤ a → b' ≤ 99 → a < b' →
        -48 ≤ child (play_move board i).1 (play_move board i).2 a b' ∧
        child (play_move board i).1 (play_move board i).2 a b' ≤ 48) →
      (∃ i ∈ l, board.getD i 0 ≠ 0) →
      (loop_max child board l (-99) (-1) alpha beta).2 ≠ -1
  | [], alpha, beta, _, _, _, _, hne => by
    obtain ⟨i, hi, _⟩ := hne
    exact absurd hi (List.not_mem_nil i)
  | i :: rest, alpha, beta, ha, hb, hab, hch, hne => by
    by_cases hi : board.getD i 0 = 0
    · rw [loop_max_skip child board i rest (-99) (-1) alpha beta hi]
      refine loop_max_first_ne child board rest alpha beta ha hb hab
        (fun j hj => hch j (List.mem_cons_of_mem i hj)) ?_
      obtain ⟨j, hj, hjne⟩ := hne
      rcases List.mem_cons.mp hj with rfl | hj
      · exact absurd hi hjne
      · exact ⟨j, hj, hjne⟩
    · rw [loop_max_cons child board i rest (-99) (-1) alpha beta hi]
      have he := hch i (List.mem_cons_self i rest) hi alpha beta ha hb hab
      have hlt : (-99 : Int) < child (play_move board i).1 (play_move board i).2 alpha beta := by
        omega
      by_cases hbr :
        beta ≤ max alpha (child (play_move board i).1 (play_move board i).2 alpha beta)
      · rw [if_pos hbr, if_pos hlt]
        show (i : Int) ≠ -1
        omega
      · rw [if_neg hbr, if_pos hlt, if_pos hlt]
        refine loop_max_keep_ne child board rest _ _ _ _ ?_
        omega

theorem loop_min_first_ne (child : Board → Bool → Int → Int → Int) (board : Board) :
    ∀ (l : List Nat) (alpha beta : Int), -99 ≤ alpha → beta ≤ 99 → alpha < beta →
      (∀ i ∈ l, board.getD i 0 ≠ 0 → ∀ a b', -99 ≤ a → b' ≤ 99 → a < b' →
        -48 ≤ child (play_move board i).1 (play_move board i).2 a b' ∧
        child (play_move board i).1 (play_move board i).2 a b' ≤ 48) →
      (∃ i ∈ l, board.getD i 0 ≠ 0) →
      (loop_min child board l 99 (-1) alpha beta).2 ≠ -1
  | [], alpha, beta, _, _, _, _, hne => by
    obtain ⟨i, hi, _⟩ := hne
    exact absurd hi (List.not_mem_nil i)
  | i :: rest, alpha, beta, ha, hb, hab, hch, hne => by
    by_cases hi : board.getD i 0 = 0
    · rw [loop_min_skip child board i rest 99 (-1) alpha beta hi]
      refine loop_min_first_ne child board rest alpha beta ha hb hab
        (fun j hj => hch j (List.mem_cons_of_mem i hj)) ?_
      obtain ⟨j, hj, hjne⟩ := hne
      rcases List.mem_cons.mp hj with rfl | hj
      · exact absurd hi hjne
      · exact ⟨j, hj, hjne⟩
    · rw [loop_min_cons child board i rest 99 (-1) alpha beta hi]
      have he := hch i (List.mem_cons_self i rest) hi alpha beta ha hb hab
      have hlt : child (play_move board i).1 (play_move board i).2 alpha beta < 99 := by
        omega
      by_cases hbr :
        min beta (child (play_move board i).1 (play_move board i).2 alpha beta) ≤ alpha
      · rw [if_pos hbr, if_pos hlt]
        show (i : Int) ≠ -1
        omega
      · rw [if_neg hbr, if_pos hlt, if_pos hlt]
        refine loop_min_keep_ne child board rest _ _ _ _ ?_
        omega

theorem loop_max_le_48 (child : Board → Bool → Int → Int → Int) (board : Board) :
    ∀ (l : List Nat) (be bm alpha beta : Int), -99 ≤ alpha → beta ≤ 99 → alpha < beta →
      be ≤ 48 →
      (∀ i ∈ l, board.getD i 0 ≠ 0 → ∀ a b', -99 ≤ a → b' ≤ 99 → a < b' →
        -48 ≤ child (play_move board i).1 (play_move board i).2 a b' ∧
        child (play_move board i).1 (play_move board i).2 a b' ≤ 48) →
      (loop_max child board l be bm alpha beta).1 ≤ 48
  | [], be, bm, alpha, beta, _, _, _, hbe, _ => hbe
  | i :: rest, be, bm, alpha, beta, ha, hb, hab, hbe, hch => by
    by_cases hi : board.getD i 0 = 0
    · rw [loop_max_skip child board i rest be bm alpha beta hi]
      exact loop_max_le_48 child board rest be bm alpha beta ha hb hab hbe
        (fun j hj => hch j (List.mem_cons_of_mem i hj))
    · rw [loop_max_cons child board i rest be bm alpha beta hi]
      have he := hch i (List.mem_cons_self i rest) hi alpha beta ha hb hab
      by_cases hbr :
        beta ≤ max alpha (child (play_move board i).1 (play_move board i).2 alpha beta)
      · rw [if_pos hbr]
        by_cases h : be < child (play_move board i).1 (play_move board i).2 alpha beta
        · rw [if_pos h]
          exact he.2
        · rw [if_neg h]
          exact hbe
      · rw [if_neg hbr]
        refine loop_max_le_48 child board rest _ _ _ _ (by omega) hb (by omega) ?_
          (fun j hj => hch j (List.mem_cons_of_mem i hj))
        by_cases h : be < child (play_move board i).1 (play_move board i).2 alpha beta
        · rw [if_pos h]
          exact he.2
        · rw [if_neg h]
          exact hbe

theorem loop_min_ge_neg48 (child : Board → Bool → Int → Int → Int) (board : Board) :
    ∀ (l : List Nat) (be bm alpha beta : Int), -99 ≤ alpha → beta ≤ 99 → alpha < beta →
      -48 ≤ be →
      (∀ i ∈ l, board.getD i 0 ≠ 0 → ∀ a b', -99 ≤ a → b' ≤ 99 → a < b' →
        -48 ≤ child (play_move board i).1 (play_move board i).2 a b' ∧
        child (play_move board i).1 (play_move board i).2 a b' ≤ 48) →
      -48 ≤ (loop_min child board l be bm alpha beta).1
  | [], be, bm, alpha, beta, _, _, _, hbe, _ => hbe
  | i :: rest, be, bm, alpha, beta, ha, hb, hab, hbe, hch => by
    by_cases hi : board.getD i 0 = 0
    · rw [loop_min_skip child board i rest be bm alpha beta hi]
      exact loop_min_ge_neg48 child board rest be bm alpha beta ha hb hab hbe
        (fun j hj => hch j (List.mem_cons_of_mem i hj))
    · rw [loop_min_cons child board i rest be bm alpha beta hi]
      have he := hch i (List.mem_cons_self i rest) hi alpha beta ha hb hab
      by_cases hbr :
        min beta (child (play_move board i).1 (play_move board i).2 alpha beta) ≤ alpha
      · rw [if_pos hbr]
        by_cases h : child (play_move board i).1 (play_move board i).2 alpha beta < be
        · rw [if_pos h]
          exact he.1
        · rw [if_neg h]
          exact hbe
      · rw [if_neg hbr]
        refine loop_min_ge_neg48 child board rest _ _ _ _ ha (by omega) (by omega) ?_
          (fun j hj => hch j (List.mem_cons_of_mem i hj))
        by_cases h : child (play_move board i).1 (play_move board i).2 alpha beta < be
        · rw [if_pos h]
          exact he.1
        · rw [if_neg h]
          exact hbe

theorem loop_max_ge_neg48 (child : Board → Bool → Int → Int → Int) (board : Board) :
    ∀ (l : List Nat) (be bm alpha beta : Int), -99 ≤ alpha → beta ≤ 99 → alpha < beta →
      (∀ i ∈ l, board.getD i 0 ≠ 0 → ∀ a b', -99 ≤ a → b' ≤ 99 → a < b' →
        -48 ≤ child (play_move board i).1 (play_move board i).2 a b' ∧
        child (play_move board i).1 (play_move board i).2 a b' ≤ 48) →
      (∃ i ∈ l, board.getD i 0 ≠ 0) →
      -48 ≤ (loop_max child board l be bm alpha beta).1
  | [], _, _, alpha, beta, _, _, _, _, hne => by
    obtain ⟨i, hi, _⟩ := hne
    exact absurd hi (List.not_mem_nil i)
  | i :: rest, be, bm, alpha, beta, ha, hb, hab, hch, hne => by
    by_cases hi : board.getD i 0 = 0
    · rw [loop_max_skip child board i rest be bm alpha beta hi]
      refine loop_max_ge_neg48 child board rest be bm alpha beta ha hb hab
        (fun j hj => hch j (List.mem_cons_of_mem i hj)) ?_
      obtain ⟨j, hj, hjne⟩ := hne
      rcases List.mem_cons.mp hj with rfl | hj
      · exact absurd hi hjne
      · exact ⟨j, hj, hjne⟩
    · rw [loop_max_cons child board i rest be bm alpha beta hi]
      have he := hch i (List.mem_cons_self i rest) hi alpha beta ha hb hab
      by_cases hbr :
        beta ≤ max alpha (child (play_move board i).1 (play_move board i).2 alpha beta)
      · rw [if_pos hbr]
        by_cases h : be < child (play_move board i).1 (play_move board i).2 alpha beta
        · rw [if_pos h]
          exact he.1
        · rw [if_neg h]
          omega
      · rw [if_neg hbr]
        refine le_trans ?_ (loop_max_ge_be child board rest _ _ _ _)
        by_cases h : be < child (play_move board i).1 (play_move board i).2 alpha beta
        · rw [if_pos h]
          exact he.1
        · rw [if_neg h]
          omega

theorem loop_min_le_48 (child : Board → Bool → Int → Int → Int) (board : Board) :
    ∀ (l : List Nat) (be bm alpha beta : Int), -99 ≤ alpha → beta ≤ 99 → alpha < beta →
      (∀ i ∈ l, board.getD i 0 ≠ 0 → ∀ a b', -99 ≤ a → b' ≤ 99 → a < b' →
        -48 ≤ child (play_move board i).1 (play_move board i).2 a b' ∧
        child (play_move board i).1 (play_move board i).2 a b' ≤ 48) →
      (∃ i ∈ l, board.getD i 0 ≠ 0) →
      (loop_min child board l be bm alpha beta).1 ≤ 48
  | [], _, _, alpha, beta, _, _, _, _, hne => by
    obtain ⟨i, hi, _⟩ := hne
    exact absurd hi (List.not_mem_nil i)
  | i :: rest, be, bm, alpha, beta, ha, hb, hab, hch, hne => by
    by_cases hi : board.getD i 0 = 0
    · rw [loop_min_skip child board i rest be bm alpha beta hi]
      refine loop_min_le_48 child board rest be bm alpha beta ha hb hab
        (fun j hj => hch j (List.mem_cons_of_mem i hj)) ?_
      obtain ⟨j, hj, hjne⟩ := hne
      rcases List.mem_cons.mp hj with rfl | hj
      · exact absurd hi hjne
      · exact ⟨j, hj, hjne⟩
    · rw [loop_min_cons child board i rest be bm alpha beta hi]
      have he := hch i (List.mem_cons_self i rest) hi alpha beta ha hb hab
      by_cases hbr :
        min beta (child (play_move board i).1 (play_move board i).2 alpha beta) ≤ alpha
      · rw [if_pos hbr]
        by_cases h : child (play_move board i).1 (play_move board i).2 alpha beta < be
        · rw [if_pos h]
          exact he.2
        · rw [if_neg h]
          omega
      · rw [if_neg hbr]
        refine le_trans (loop_min_le_be child board rest _ _ _ _) ?_
        by_cases h : child (play_move board i).1 (play_move board i).2 alpha beta < be
        · rw [if_pos h]
          exact he.2
        · rw [if_neg h]
          omega

theorem loop_max_tri (depth : Nat) (child : Board → Bool → Int → Int → Int)
    (board : Board) :
    ∀ (l : List Nat) (be bm alpha beta : Int),
      -99 ≤ alpha → beta ≤ 99 → alpha < beta → be ≤ alpha →
      (∀ i ∈ l, board.getD i 0 ≠ 0 → ∀ a b', -99 ≤ a → b' ≤ 99 → a < b' →
        ((plain_minimax depth (play_move board i).1 (play_move board i).2 ≤ a →
          plain_minimax depth (play_move board i).1 (play_move board i).2 ≤
            child (play_move board i).1 (play_move board i).2 a b' ∧
          child (play_move board i).1 (play_move board i).2 a b' ≤ a) ∧
         (b' ≤ plain_minimax depth (play_move board i).1 (play_move board i).2 →
          b' ≤ child (play_move board i).1 (play_move board i).2 a b' ∧
          child (play_move board i).1 (play_move board i).2 a b' ≤
            plain_minimax depth (play_move board i).1 (play_move board i).2) ∧
         (a < plain_minimax depth (play_move board i).1 (play_move board i).2 →
          plain_minimax depth (play_move board i).1 (play_move board i).2 < b' →
          child (play_move board i).1 (play_move board i).2 a b' =
            plain_minimax depth (play_move board i).1 (play_move board i).2))) →
      ((pf_max depth board l be ≤ alpha →
        pf_max depth board l be ≤ (loop_max child board l be bm alpha beta).1 ∧
        (loop_max child board l be bm alpha beta).1 ≤ alpha) ∧
       (beta ≤ pf_max depth board l be →
        beta ≤ (loop_max child board l be bm alpha beta).1 ∧
        (loop_max child board l be bm alpha beta).1 ≤ pf_max depth board l be) ∧
       (alpha < pf_max depth board l be → pf_max depth board l be < beta →
        (loop_max child board l be bm alpha beta).1 = pf_max depth board l be))
  | [], be, bm, alpha, beta, ha, hb, hab, hbe, _ => by
    have h0 : pf_max depth board [] be = be := rfl
    have hl : (loop_max child board [] be bm alpha beta).1 = be := rfl
    rw [h0, hl]
    omega
  | i :: rest, be, bm, alpha, beta, ha, hb, hab, hbe, hch => by
    by_cases hi : board.getD i 0 = 0
    · rw [loop_max_skip child board i rest be bm alpha beta hi, pf_max_cons, if_pos hi]
      exact loop_max_tri depth child board rest be bm alpha beta ha hb hab hbe
        (fun j hj => hch j (List.mem_cons_of_mem i hj))
    · obtain ⟨hc1, hc2, hc3⟩ := hch i (List.mem_cons_self i rest) hi alpha beta ha hb hab
      have hQle := pf_max_le depth board rest be
      rw [loop_max_cons child board i rest be bm alpha beta hi, pf_max_cons, if_neg hi,
        pf_max_acc depth board rest be
          (plain_minimax depth (play_move board i).1 (play_move board i).2)]
      by_cases hbr : beta ≤ max alpha
          (child (play_move board i).1 (play_move board i).2 alpha beta)
      · rw [if_pos hbr]
        have hv : (if be < child (play_move board i).1 (play_move board i).2 alpha beta
            then (child (play_move board i).1 (play_move board i).2 alpha beta, (i : Int))
            else (be, bm)).1 =
            max be (child (play_move board i).1 (play_move board i).2 alpha beta) := by
          by_cases h : be < child (play_move board i).1 (play_move board i).2 alpha beta <;>
            simp [h] <;> omega
        rw [hv]
        omega
      · rw [if_neg hbr]
        have hv2 : (if be < child (play_move board i).1 (play_move board i).2 alpha beta
            then child (play_move board i).1 (play_move board i).2 alpha beta else be) =
            max be (child (play_move board i).1 (play_move board i).2 alpha beta) := by
          omega
        rw [hv2]
        obtain ⟨hr1, hr2, hr3⟩ := loop_max_tri depth child board rest
          (max be (child (play_move board i).1 (play_move board i).2 alpha beta))
          (if be < child (play_move board i).1 (play_move board i).2 alpha beta
            then (i : Int) else bm)
          (max alpha (child (play_move board i).1 (play_move board i).2 alpha beta))
          beta (by omega) hb (by omega) (by omega)
          (fun j hj => hch j (List.mem_cons_of_mem i hj))
        rw [pf_max_acc depth board rest be
          (child (play_move board i).1 (play_move board i).2 alpha beta)] at hr1 hr2 hr3
        omega

theorem loop_min_tri (depth : Nat) (child : Board → Bool → Int → Int → Int)
    (board : Board) :
    ∀ (l : List Nat) (be bm alpha beta : Int),
      -99 ≤ alpha → beta ≤ 99 → alpha < beta → beta ≤ be →
      (∀ i ∈ l, board.getD i 0 ≠ 0 → ∀ a b', -99 ≤ a → b' ≤ 99 → a < b' →
        ((plain_minimax depth (play_move board i).1 (!(play_move board i).2) ≤ a →
          plain_minimax depth (play_move board i).1 (!(play_move board i).2) ≤
            child (play_move board i).1 (play_move board i).2 a b' ∧
          child (play_move board i).1 (play_move board i).2 a b' ≤ a) ∧
         (b' ≤ plain_minimax depth (play_move board i).1 (!(play_move board i).2) →
          b' ≤ child (play_move board i).1 (play_move board i).2 a b' ∧
          child (play_move board i).1 (play_move board i).2 a b' ≤
            plain_minimax depth (play_move board i).1 (!(play_move board i).2)) ∧
         (a < plain_minimax depth (play_move board i).1 (!(play_move board i).2) →
          plain_minimax depth (play_move board i).1 (!(play_move board i).2) < b' →
          child (play_move board i).1 (play_move board i).2 a b' =
            plain_minimax depth (play_move board i).1 (!(play_move board i).2)))) →
      ((pf_min depth board l be ≤ alpha →
        pf_min depth board l be ≤ (loop_min child board l be bm alpha beta).1 ∧
        (loop_min child board l be bm alpha beta).1 ≤ alpha) ∧
       (beta ≤ pf_min depth board l be →
        beta ≤ (loop_min child board l be bm alpha beta).1 ∧
        (loop_min child board l be bm alpha beta).1 ≤ pf_min depth board l be) ∧
       (alpha < pf_min depth board l be → pf_min depth board l be < beta →
        (loop_min child board l be bm alpha beta).1 = pf_min depth board l be))
  | [], be, bm, alpha, beta, ha, hb, hab, hbe, _ => by
    have h0 : pf_min depth board [] be = be := rfl
    have hl : (loop_min child board [] be bm alpha beta).1 = be := rfl
    rw [h0, hl]
    omega
  | i :: rest, be, bm, alpha, beta, ha, hb, hab, hbe, hch => by
    by_cases hi : board.getD i 0 = 0
    · rw [loop_min_skip child board i rest be bm alpha beta hi, pf_min_cons, if_pos hi]
      exact loop_min_tri depth child board rest be bm alpha beta ha hb hab hbe
        (fun j hj => hch j (List.mem_cons_of_mem i hj))
    · obtain ⟨hc1, hc2, hc3⟩ := hch i (List.mem_cons_self i rest) hi alpha beta ha hb hab
      have hQle := pf_min_le depth board rest be
      rw [loop_min_cons child board i rest be bm alpha beta hi, pf_min_cons, if_neg hi,
        pf_min_acc depth board rest be
          (plain_minimax depth (play_move board i).1 (!(play_move board i).2))]
      by_cases hbr : min beta
          (child (play_move board i).1 (play_move board i).2 alpha beta) ≤ alpha
      · rw [if_pos hbr]
        have hv : (if child (play_move board i).1 (play_move board i).2 alpha beta < be
            then (child (play_move board i).1 (play_move board i).2 alpha beta, (i : Int))
            else (be, bm)).1 =
            min be (child (play_move board i).1 (play_move board i).2 alpha beta) := by
          by_cases h : child (play_move board i).1 (play_move board i).2 alpha beta < be <;>
            simp [h] <;> omega
        rw [hv]
        omega
      · rw [if_neg hbr]
        have hv2 : (if child (play_move board i).1 (play_move board i).2 alpha beta < be
            then child (play_move board i).1 (play_move board i).2 alpha beta else be) =
            min be (child (play_move board i).1 (play_move board i).2 alpha beta) := by
          omega
        rw [hv2]
        obtain ⟨hr1, hr2, hr3⟩ := loop_min_tri depth child board rest
          (min be (child (play_move board i).1 (play_move board i).2 alpha beta))
          (if child (play_move board i).1 (play_move board i).2 alpha beta < be
            then (i : Int) else bm)
          alpha
          (min beta (child (play_move board i).1 (play_move board i).2 alpha beta))
          ha (by omega) (by omega) (by omega)
          (fun j hj => hch j (List.mem_cons_of_mem i hj))
        rw [pf_min_acc depth board rest be
          (child (play_move board i).1 (play_move board i).2 alpha beta)] at hr1 hr2 hr3
        omega

theorem mm_spec :
    ∀ (depth : Nat) (b : Board) (t : Bool) (alpha beta : Int),
      b.length = 14 → b.sum ≤ 48 → -99 ≤ alpha → beta ≤ 99 → alpha < beta →
      ((-48 ≤ (minimax depth b t alpha beta).1 ∧ (minimax depth b t alpha beta).1 ≤ 48) ∧
       (plain_minimax depth b t ≤ alpha →
         plain_minimax depth b t ≤ (minimax depth b t alpha beta).1 ∧
         (minimax depth b t alpha beta).1 ≤ alpha) ∧
       (beta ≤ plain_minimax depth b t →
         beta ≤ (minimax depth b t alpha beta).1 ∧
         (minimax depth b t alpha beta).1 ≤ plain_minimax depth b t) ∧
       (alpha < plain_minimax depth b t → plain_minimax depth b t < beta →
         (minimax depth b t alpha beta).1 = plain_minimax depth b t))
  | 0, b, t, alpha, beta, hlen, hsum, ha, hb, hab => by
    have h1 : (minimax 0 b t alpha beta).1 = store_eval b := rfl
    have h2 : plain_minimax 0 b t = store_eval b := rfl
    rw [h1, h2]
    have hse := store_eval_bound b hlen hsum
    omega
  | depth + 1, b, t, alpha, beta, hlen, hsum, ha, hb, hab => by
    cases t with
    | true =>
      rw [minimax_succ_true, plain_succ_true]
      by_cases hemp : ∀ i ∈ AC_PITS, b.getD i 0 = 0
      · rw [loop_max_all_empty (ac_child depth) b AC_PITS (-99) (-1) alpha beta hemp,
          if_pos (show ((-99 : Int), (-1 : Int)).2 = -1 from rfl), if_pos hemp]
        have hv : ((game_over_eval b true, some (-1 : Int)) : Int × Option Int).1 =
            game_over_eval b true := rfl
        rw [hv]
        have hge := game_over_eval_bound b true hlen hsum
        omega
      · have hch_bounds : ∀ i ∈ AC_PITS, b.getD i 0 ≠ 0 → ∀ a b', -99 ≤ a → b' ≤ 99 →
            a < b' →
            -48 ≤ ac_child depth (play_move b i).1 (play_move b i).2 a b' ∧
            ac_child depth (play_move b i).1 (play_move b i).2 a b' ≤ 48 := by
          intro i hi hine a b' ha' hb' hab'
          have hlen' : (play_move b i).1.length = 14 := by
            rw [length_play_move]; exact hlen
          have hsum' : (play_move b i).1.sum ≤ 48 := by
            rw [play_move_sum b i hlen ⟨AC_PITS_range i hi, hine⟩]; exact hsum
          exact (mm_spec depth (play_move b i).1 (play_move b i).2 a b'
            hlen' hsum' ha' hb' hab').1
        have hch_tri : ∀ i ∈ AC_PITS, b.getD i 0 ≠ 0 → ∀ a b', -99 ≤ a → b' ≤ 99 →
            a < b' →
            ((plain_minimax depth (play_move b i).1 (play_move b i).2 ≤ a →
              plain_minimax depth (play_move b i).1 (play_move b i).2 ≤
                ac_child depth (play_move b i).1 (play_move b i).2 a b' ∧
              ac_child depth (play_move b i).1 (play_move b i).2 a b' ≤ a) ∧
             (b' ≤ plain_minimax depth (play_move b i).1 (play_move b i).2 →
              b' ≤ ac_child depth (play_move b i).1 (play_move b i).2 a b' ∧
              ac_child depth (play_move b i).1 (play_move b i).2 a b' ≤
                plain_minimax depth (play_move b i).1 (play_move b i).2) ∧
             (a < plain_minimax depth (play_move b i).1 (play_move b i).2 →
              plain_minimax depth (play_move b i).1 (play_move b i).2 < b' →
              ac_child depth (play_move b i).1 (play_move b i).2 a b' =
                plain_minimax depth (play_move b i).1 (play_move b i).2)) := by
          intro i hi hine a b' ha' hb' hab'
          have hlen' : (play_move b i).1.length = 14 := by
            rw [length_play_move]; exact hlen
          have hsum' : (play_move b i).1.sum ≤ 48 := by
            rw [play_move_sum b i hlen ⟨AC_PITS_range i hi, hine⟩]; exact hsum
          exact (mm_spec depth (play_move b i).1 (play_move b i).2 a b'
            hlen' hsum' ha' hb' hab').2
        have hne : ∃ i ∈ AC_PITS, b.getD i 0 ≠ 0 := by
          push_neg at hemp; exact hemp
        have hmove := loop_max_first_ne (ac_child depth) b AC_PITS alpha beta
          ha hb hab hch_bounds hne
        rw [if_neg hmove, if_neg hemp]
        have hv : (((loop_max (ac_child depth) b AC_PITS (-99) (-1) alpha beta).1,
            some (loop_max (ac_child depth) b AC_PITS (-99) (-1) alpha beta).2) :
            Int × Option Int).1 =
            (loop_max (ac_child depth) b AC_PITS (-99) (-1) alpha beta).1 := rfl
        rw [hv]
        obtain ⟨ht1, ht2, ht3⟩ := loop_max_tri depth (ac_child depth) b AC_PITS
          (-99) (-1) alpha beta ha hb hab (by omega) hch_tri
        have hlb := loop_max_ge_neg48 (ac_child depth) b AC_PITS (-99) (-1) alpha beta
          ha hb hab hch_bounds hne
        have hub := loop_max_le_48 (ac_child depth) b AC_PITS (-99) (-1) alpha beta
          ha hb hab (by omega) hch_bounds
        exact ⟨⟨hlb, hub⟩, ht1, ht2, ht3⟩
    | false =>
      rw [minimax_succ_false, plain_succ_false]
      by_cases hemp : ∀ i ∈ OPP_PITS, b.getD i 0 = 0
      · rw [loop_min_all_empty (opp_child depth) b OPP_PITS 99 (-1) alpha beta hemp,
          if_pos (show ((99 : Int), (-1 : Int)).2 = -1 from rfl), if_pos hemp]
        have hv : ((game_over_eval b false, some (-1 : Int)) : Int × Option Int).1 =
            game_over_eval b false := rfl
        rw [hv]
        have hge := game_over_eval_bound b false hlen hsum
        omega
      · have hch_bounds : ∀ i ∈ OPP_PITS, b.getD i 0 ≠ 0 → ∀ a b', -99 ≤ a → b' ≤ 99 →
            a < b' →
            -48 ≤ opp_child depth (play_move b i).1 (play_move b i).2 a b' ∧
            opp_child depth (play_move b i).1 (play_move b i).2 a b' ≤ 48 := by
          intro i hi hine a b' ha' hb' hab'
          have hlen' : (play_move b i).1.length = 14 := by
            rw [length_play_move]; exact hlen
          have hsum' : (play_move b i).1.sum ≤ 48 := by
            rw [play_move_sum b i hlen ⟨OPP_PITS_range i hi, hine⟩]; exact hsum
          exact (mm_spec depth (play_move b i).1 (!(play_move b i).2) a b'
            hlen' hsum' ha' hb' hab').1
        have hch_tri : ∀ i ∈ OPP_PITS, b.getD i 0 ≠ 0 → ∀ a b', -99 ≤ a → b' ≤ 99 →
            a < b' →
            ((plain_minimax depth (play_move b i).1 (!(play_move b i).2) ≤ a →
              plain_minimax depth (play_move b i).1 (!(play_move b i).2) ≤
                opp_child depth (play_move b i).1 (play_move b i).2 a b' ∧
              opp_child depth (play_move b i).1 (play_move b i).2 a b' ≤ a) ∧
             (b' ≤ plain_minimax depth (play_move b i).1 (!(play_move b i).2) →
              b' ≤ opp_child depth (play_move b i).1 (play_move b i).2 a b' ∧
              opp_child depth (play_move b i).1 (play_move b i).2 a b' ≤
                plain_minimax depth (play_move b i).1 (!(play_move b i).2)) ∧
             (a < plain_minimax depth (play_move b i).1 (!(play_move b i).2) →
              plain_minimax depth (play_move b i).1 (!(play_move b i).2) < b' →
              opp_child depth (play_move b i).1 (play_move b i).2 a b' =
                plain_minimax depth (play_move b i).1 (!(play_move b i).2))) := by
          intro i hi hine a b' ha' hb' hab'
          have hlen' : (play_move b i).1.length = 14 := by
            rw [length_play_move]; exact hlen
          have hsum' : (play_move b i).1.sum ≤ 48 := by
            rw [play_move_sum b i hlen ⟨OPP_PITS_range i hi, hine⟩]; exact hsum
          exact (mm_spec depth (play_move b i).1 (!(play_move b i).2) a b'
            hlen' hsum' ha' hb' hab').2
        have hne : ∃ i ∈ OPP_PITS, b.getD i 0 ≠ 0 := by
          push_neg at hemp; exact hemp
        have hmove := loop_min_first_ne (opp_child depth) b OPP_PITS alpha beta
          ha hb hab hch_bounds hne
        rw [if_neg hmove, if_neg hemp]
        have hv : (((loop_min (opp_child depth) b OPP_PITS 99 (-1) alpha beta).1,
            some (loop_min (opp_child depth) b OPP_PITS 99 (-1) alpha beta).2) :
            Int × Option Int).1 =
            (loop_min (opp_child depth) b OPP_PITS 99 (-1) alpha beta).1 := rfl
        rw [hv]
        obtain ⟨ht1, ht2, ht3⟩ := loop_min_tri depth (opp_child depth) b OPP_PITS
          99 (-1) alpha beta ha hb hab (by omega) hch_tri
        have hlb := loop_min_ge_neg48 (opp_child depth) b OPP_PITS 99 (-1) alpha beta
          ha hb hab (by omega) hch_bounds
        have hub := loop_min_le_48 (opp_child depth) b OPP_PITS 99 (-1) alpha beta
          ha hb hab hch_bounds hne
        exact ⟨⟨hlb, hub⟩, ht1, ht2, ht3⟩

/-- C7 — Alpha-beta is a pure optimization: on any 14-cell board whose total seed
count is at most 48 (so every reachable evaluation lies strictly inside the initial
window −99..99), for every turn flag and every depth, the pruned `minimax` returns
exactly the evaluation of plain unpruned fixed-depth minimax over the same
`play_move` transition, the same store-difference heuristic, and the same terminal
sweep (source lines 136–204). -/
theorem minimax_eq_plain (board : Board) (is_ac_turn : Bool) (depth : Nat)
    (hlen : board.length = 14) (hsum : board.sum ≤ 48) :
    (minimax depth board is_ac_turn (-99) 99).1 =
      plain_minimax depth board is_ac_turn := by
  obtain ⟨hbounds, h1, h2, h3⟩ := mm_spec depth board is_ac_turn (-99) 99 hlen hsum
    (by omega) (by omega) (by omega)
  omega

/-- Witness for C7 at the initial board (48 seeds) and depth 2: the pruned and the
plain search agree. -/
theorem minimax_eq_plain_witness :
    ([4, 4, 4, 4, 4, 4, 0, 4, 4, 4, 4, 4, 4, 0] : Board).length = 14 ∧
    ([4, 4, 4, 4, 4, 4, 0, 4, 4, 4, 4, 4, 4, 0] : Board).sum ≤ 48 ∧
    (minimax 2 [4, 4, 4, 4, 4, 4, 0, 4, 4, 4, 4, 4, 4, 0] true (-99) 99).1 =
      plain_minimax 2 [4, 4, 4, 4, 4, 4, 0, 4, 4, 4, 4, 4, 4, 0] true :=
  ⟨by decide, by decide,
    minimax_eq_plain [4, 4, 4, 4, 4, 4, 0, 4, 4, 4, 4, 4, 4, 0] true 2
      (by decide) (by decide)⟩

/-- Witness for C9: at depth 1 on a small board AlphaCala's reported move is pit 5,
which indeed belongs to AlphaCala and is non-empty. -/
theorem minimax_reports_legal_witness :
    (minimax 1 [0, 0, 3, 0, 0, 1, 0, 2, 0, 0, 0, 0, 1, 0] true (-99) 99).2 = some 5 ∧
    (5 : Int) ≠ -1 ∧
    ∃ i : Nat, (5 : Int) = (i : Int) ∧
      ([0, 0, 3, 0, 0, 1, 0, 2, 0, 0, 0, 0, 1, 0] : Board).getD i 0 ≠ 0 ∧
      (if true then i ≤ 5 else 7 ≤ i ∧ i ≤ 12) :=
  ⟨by decide, by decide,
    minimax_reports_legal [0, 0, 3, 0, 0, 1, 0, 2, 0, 0, 0, 0, 1, 0] true 1 (-99) 99 5
      (by decide) (by decide)⟩
